import Mathlib

/-! Shallow embedding of the Apophenia utility routines in `apop_asst.m4.c`:
the in-place row sort `apop_data_sort` (with its helpers `find_min_unsorted`,
the descending reversal loop and the cycle-following application loop), the
memoized `apop_generalized_harmonic`, and `apop_vector_percentiles`.

Modelling conventions: machine doubles are idealized as exact rationals `ℚ`,
with an explicit not-a-number marker `RVal.nan` for sort keys; `size_t` row
indices are `Nat`; the C `int` results that can be `-1` are `Int`.  The table
is viewed row-major (`Apop_data_row` / `apop_data_set_row` treat the vector
entry, the matrix row and the text row of one index as a single unit, which
is exactly how the sort moves data).  The two C `while` loops carry a fuel
argument; the correctness proofs show the fuel bounds used by the model are
never exhausted when the applied index map is a permutation. -/

namespace Apophenia

/-- Key values as stored in a `gsl_vector` slot: an ordinary number or NaN. -/
inductive RVal where
  | nan : RVal
  | num : ℚ → RVal
deriving DecidableEq

instance : Inhabited RVal := ⟨RVal.num 0⟩

/-- One row of an `apop_data` set: its vector entry, its matrix row and its
text fields.  `Apop_data_row` and `apop_data_set_row` read and write all
three components of one index together. -/
structure Row where
  vec : RVal
  mat : List RVal
  txt : List String
deriving DecidableEq

instance : Inhabited Row := ⟨⟨RVal.num 0, [], []⟩⟩

/-- An `apop_data` set, viewed row-major: presence flags for the vector and
matrix components (the C struct's `data->vector` / `data->matrix` being
non-NULL) plus the list of rows. -/
structure ApopData where
  vecPresent : Bool
  matPresent : Bool
  rows : List Row
deriving DecidableEq

/-- Recursion core of the `find_min_unsorted` scan, with the loop's
remaining trip count `height - min` made an explicit structural argument. -/
def find_min_go (sorted : Nat → Bool) : Nat → Nat → Int
  | _, 0 => -1
  | min, rem + 1 =>
    if !(sorted min) then (min : Int) else find_min_go sorted (min + 1) rem

/-- Linear scan for the first unmarked index at or after `min`, `-1` when
every index in `[min, height)` is marked (apop_asst.m4.c, `find_min_unsorted`). -/
def find_min_unsorted (sorted : Nat → Bool) (height : Nat) (min : Nat) : Int :=
  find_min_go sorted min (height - min)

/-- The inner cycle-following loop of `apop_data_sort`: while `perm i ≠ start`
copy row `perm i` into row `i`, mark `perm i` and advance to `perm i`; when
the cycle closes write the saved first row `tmp` into row `i`.  The C `while`
loop is given fuel; `height` steps always suffice for a permutation. -/
def applyCycle {α : Type} (perm : Nat → Nat) (start : Nat) (tmp : α) :
    Nat → (Nat → α) → (Nat → Bool) → Nat → ((Nat → α) × (Nat → Bool))
  | 0, cur, srt, _ => (cur, srt)
  | fuel + 1, cur, srt, i =>
    if perm i = start then (Function.update cur i tmp, srt)
    else
      applyCycle perm start tmp fuel
        (Function.update cur i (cur (perm i)))
        (Function.update srt (perm i) true)
        (perm i)

/-- The outer loop of `apop_data_sort`: find the smallest unmarked index,
resuming the scan at the previous cycle's `start` rather than at 0; save that
row, mark it, rotate its cycle, and repeat until the scan comes back empty. -/
def sortLoop {α : Type} (perm : Nat → Nat) (height : Nat) :
    Nat → (Nat → α) → (Nat → Bool) → Nat → (Nat → α)
  | 0, cur, _, _ => cur
  | fuel + 1, cur, srt, start0 =>
    let r := find_min_unsorted srt height start0
    if r = -1 then cur
    else
      let start := r.toNat
      let tmp := cur start
      let srt1 := Function.update srt start true
      let res := applyCycle perm start tmp height cur srt1 start
      sortLoop perm height fuel res.1 res.2 start

/-- In-place application of `perm` to the rows as `apop_data_sort` performs
it: the cycle loop started from an all-unmarked marker set and scan cursor 0.
The outer loop runs at most once per cycle, so `height + 1` rounds suffice. -/
def applyPermInPlace {α : Type} (perm : Nat → Nat) (height : Nat)
    (rows : Nat → α) : Nat → α :=
  sortLoop perm height (height + 1) rows (fun _ => false) 0

/-- Modelled from the spec: the naive out-of-place application of a
permutation, copying row `perm i` of the old table into row `i` of a fresh
table for every `i`. -/
def naiveApplyPerm {α : Type} (perm : Nat → Nat) (rows : Nat → α) : Nat → α :=
  fun i => rows (perm i)

/-- Recursion core of the reversal loop, with the remaining trip count
`height/2 - j` made an explicit structural argument. -/
def revLoop_go (height : Nat) : Nat → Nat → (Nat → Nat) → (Nat → Nat)
  | _, 0, p => p
  | j, rem + 1, p =>
    revLoop_go height (j + 1) rem
      (Function.update (Function.update p j (p (height - 1 - j))) (height - 1 - j) (p j))

/-- The descending-order reversal loop of `apop_data_sort`: for each `j` in
`[0, height/2)` swap `perm[j]` with `perm[height-1-j]`.  (The C routine uses
a `double` temporary for the swap; row indices are far below `2^53`, so the
round-trip is lossless and the temporary is elided here.) -/
def revLoop (height : Nat) (j : Nat) (p : Nat → Nat) : Nat → Nat :=
  revLoop_go height j (height / 2 - j) p

/-- The sort key of one row under selector `sortby`: `-1` selects the vector
entry, a nonnegative selector picks that matrix column (out-of-range columns
are undefined behaviour in the C; the model reads a default value). -/
def rowKey (sortby : Int) (r : Row) : RVal :=
  if sortby = -1 then r.vec else r.mat.getD sortby.toNat default

/-- The key column of a table as a function of the row index. -/
def tableKeys (t : ApopData) (sortby : Int) : Nat → RVal :=
  fun i => rowKey sortby (t.rows.getD i default)

/-- Numeric value of a key; the NaN marker never reaches a comparison, its
numeric stand-in `0` is arbitrary. -/
def keyNum (k : RVal) : ℚ :=
  match k with
  | .nan => 0
  | .num q => q

/-- Whether a key slot holds the NaN marker. -/
def isNanKey (k : RVal) : Bool :=
  match k with
  | .nan => true
  | .num _ => false

/-- Positions below `n`, in increasing order, whose key is not NaN. -/
def nonNanPos (keys : Nat → RVal) (n : Nat) : List Nat :=
  (List.range n).filter (fun i => !(isNanKey (keys i)))

/-- Number of non-NaN positions strictly below `j`. -/
def nonNanRank (keys : Nat → RVal) (j : Nat) : Nat :=
  ((List.range j).filter (fun i => !(isNanKey (keys i)))).length

/-- Comparison of two positions by their key values. -/
def keyLE (keys : Nat → RVal) (a b : Nat) : Prop :=
  keyNum (keys a) ≤ keyNum (keys b)

instance (keys : Nat → RVal) : DecidableRel (keyLE keys) := fun _ _ =>
  inferInstanceAs (Decidable (_ ≤ _))

/-- The non-NaN positions stably sorted by their key values. -/
def sortedNonNanPos (keys : Nat → RVal) (n : Nat) : List Nat :=
  List.insertionSort (keyLE keys) (nonNanPos keys n)

/-- Modelled from the spec: the external stable index-sort primitive
`gsl_sort_vector_index`, which is not part of this repository.  Per the
spec's collaborator contract it returns a permutation of `[0, n)` placing
the non-NaN keys in ascending order (stably) while every NaN-keyed index
keeps its original position. -/
def gsl_sort_vector_index (keys : Nat → RVal) (n : Nat) : Nat → Nat :=
  fun j =>
    if isNanKey (keys j) then j
    else (sortedNonNanPos keys n).getD (nonNanRank keys j) j

/-- The index map `apop_data_sort` finally applies: the ascending index
permutation, run through the in-place reversal loop when `asc` is 'd' or 'D'. -/
def sortPerm (keys : Nat → RVal) (n : Nat) (asc : Char) : Nat → Nat :=
  if asc = 'd' ∨ asc = 'D' then revLoop n 0 (gsl_sort_vector_index keys n)
  else gsl_sort_vector_index keys n

/-- Body of `apop_data_sort` after argument resolution: build the index
permutation from the key column, reverse it for a descending sort, and apply
it to the rows in place with the cycle-following loop.  (For a well-formed
table the C `height` — vector size or matrix row count — is the row count.) -/
def apop_data_sort (t : ApopData) (sortby : Int) (asc : Char) : ApopData :=
  let height := t.rows.length
  let perm := sortPerm (tableKeys t sortby) height asc
  { t with
    rows := (List.range height).map
      (applyPermInPlace perm height (fun i => t.rows.getD i default)) }

/-- Resolution of the `sortby` argument in the designated-initializer head:
default 0, and a zero selector on a table with no matrix but a vector
present is remapped to the vector selector `-1`. -/
def resolveSortby (sortby : Option Int) (t : ApopData) : Int :=
  let sb := sortby.getD 0
  if sb = 0 ∧ t.matPresent = false ∧ t.vecPresent = true then -1 else sb

/-- The full designated-initializer entry point of `apop_data_sort`: a NULL
table returns NULL before anything is touched, emitting a diagnostic exactly
when `apop_opts.verbose ≥ 1` (the `Apop_stopif` level-1 test).  The boolean
records whether the diagnostic fired. -/
def apop_data_sort_varad (data : Option ApopData) (sortby : Option Int)
    (asc : Option Char) (verbose : Int) : Option ApopData × Bool :=
  match data with
  | none => (none, decide (1 ≤ verbose))
  | some t =>
    (some (apop_data_sort t (resolveSortby sortby t) (asc.getD (Char.ofNat 0))), false)

/-! The `apop_generalized_harmonic` memoizer.  The static per-`s` tables are
a list of entries scanned in insertion order (the C scans `eses[0..count)`
and appends new values at the end).  The C never updates `lengths[i]` after
an extension; the model keeps that quirk (`len` is the `N` of the entry's
first insertion).  `malloc`/`realloc` garbage cells are modelled as `0`; the
theorems show no garbage cell is ever read.  The real exponent `s` of the C
is idealized as an integer exponent on exact rationals. -/

/-- One term `1 / n^s` of the generalized harmonic sum. -/
def hterm (s : ℤ) (n : Nat) : ℚ := 1 / (n : ℚ) ^ s

/-- Reference value: the sum over `n` from 1 to `N` of `1 / n^s`. -/
def genHarmSum (s : ℤ) : Nat → ℚ
  | 0 => 0
  | k + 1 => genHarmSum s k + hterm s (k + 1)

/-- One memo entry: the `s` it caches, the stored `lengths[i]` (never
updated after insertion, as in the C), and the current array contents. -/
structure HEntry where
  es : ℤ
  len : Nat
  vals : List ℚ
deriving DecidableEq

instance : Inhabited HEntry := ⟨⟨0, 0, []⟩⟩

/-- `realloc` of a numeric array to `n` cells: the common prefix survives,
fresh cells are garbage (modelled as `0`). -/
def reallocList (l : List ℚ) (n : Nat) : List ℚ :=
  l.take n ++ List.replicate (n - l.length) 0

/-- Recursion core of the fill loop, with the remaining trip count `N - j`
made an explicit structural argument. -/
def hFill_go (s : ℤ) : Nat → Nat → List ℚ → List ℚ
  | _, 0, vals => vals
  | j, rem + 1, vals =>
    hFill_go s (j + 1) rem (vals.set j (vals.getD (j - 1) 0 + hterm s (j + 1)))

/-- The fill loop: for `j` from `j0` to `N - 1` set
`precalced[j] = precalced[j-1] + 1/(j+1)^s`. -/
def hFill (s : ℤ) (j : Nat) (vals : List ℚ) (N : Nat) : List ℚ :=
  hFill_go s j (N - j) vals

/-- Use one entry for a request of `Nn` terms given the entry's recorded
`old_len`: extend (after a realloc to `Nn`) when `Nn - 1 ≥ old_len`, then
read slot `Nn - 1`. -/
def hUse (s : ℤ) (Nn old_len : Nat) (vals : List ℚ) : ℚ × List ℚ :=
  let vals1 :=
    if old_len ≤ Nn - 1 then hFill s old_len (reallocList vals Nn) Nn else vals
  (vals1.getD (Nn - 1) 0, vals1)

/-- Scan the entry list for `s` in order; on a hit use (and possibly extend)
that entry in place, otherwise append a fresh entry — `malloc(N)` with slot 0
set to `1` and `old_len = 1` — and run the same extension check on it. -/
def hStepEntries (s : ℤ) (Nn : Nat) : List HEntry → ℚ × List HEntry
  | [] =>
    let r := hUse s Nn 1 (1 :: List.replicate (Nn - 1) 0)
    (r.1, [⟨s, Nn, r.2⟩])
  | e :: rest =>
    if e.es = s then
      let r := hUse s Nn e.len e.vals
      (r.1, ⟨e.es, e.len, r.2⟩ :: rest)
    else
      let r := hStepEntries s Nn rest
      (r.1, e :: r.2)

/-- One call of `apop_generalized_harmonic` on memo state `st`: `N ≤ 0`
returns NaN (modelled as `none`) without touching the state; otherwise the
memo is consulted, possibly extended, and slot `N - 1` returned. -/
def apop_generalized_harmonic (st : List HEntry) (N : ℤ) (s : ℤ) :
    Option ℚ × List HEntry :=
  if N ≤ 0 then (none, st)
  else
    let r := hStepEntries s N.toNat st
    (some r.1, r.2)

/-- The memo state after a sequence of calls, starting from the empty
statics. -/
def hRun (calls : List (ℤ × ℤ)) : List HEntry :=
  calls.foldl (fun st c => (apop_generalized_harmonic st c.1 c.2).2) []

/-- Well-formedness of one memo entry: a nonempty recorded length, an array
at least that long, and the recorded prefix holding the true partial sums. -/
def WFentry (e : HEntry) : Prop :=
  1 ≤ e.len ∧ e.len ≤ e.vals.length ∧
    ∀ k, k < e.len → e.vals.getD k 0 = genHarmSum e.es (k + 1)

/-! `apop_vector_percentiles`.  The input vector is copied (`gsl_vector_memcpy`)
and the copy sorted; the C `int index = i*(size-1)/100.0` truncates an exact
double quotient, which for the sizes a double represents exactly is the
integer quotient, and the `index != i*(size-1)/100.0` test is exactness of
that division. -/

/-- The loop body of `apop_vector_percentiles` for percentile `i`:
`index = i*(size-1)/100` (the exact-double division, truncated), bumped up
for `'u'` on an inexact division, averaged with its successor for `'a'`. -/
def pctileAt (sorted : List ℚ) (size : Nat) (rounding : Char) (i : Nat) : ℚ :=
  let index := i * (size - 1) / 100
  if rounding = 'u' ∧ ¬(100 ∣ i * (size - 1)) then sorted.getD (index + 1) 0
  else if rounding = 'a' ∧ ¬(100 ∣ i * (size - 1)) then
    (sorted.getD index 0 + sorted.getD (index + 1) 0) / 2
  else sorted.getD index 0

/-- Result of `apop_vector_percentiles`: the 101 percentile values paired
with the input buffer as the call leaves it (only the fresh copy is sorted,
so the input comes back untouched). -/
def apop_vector_percentiles (data : List ℚ) (rounding : Char) :
    List ℚ × List ℚ :=
  let sorted := List.insertionSort (· ≤ ·) data
  ((List.range 101).map (pctileAt sorted data.length rounding), data)

/-! Concrete fixtures for counterexamples and witnesses. -/

/-- A one-column table whose rows are `(key, text)` pairs. -/
def mkTable (l : List (RVal × String)) : ApopData :=
  { vecPresent := false, matPresent := true,
    rows := l.map (fun p => { vec := RVal.num 0, mat := [p.1], txt := [p.2] }) }

/-- Keys `NaN, NaN, 5`: a NaN-keyed table for the descending counterexample. -/
def nanTable : ApopData :=
  mkTable [(RVal.nan, "x"), (RVal.nan, "y"), (RVal.num 5, "z")]

/-- Keys `2, 2` with distinct texts: a tied-key table already in descending
order. -/
def tieTable : ApopData :=
  mkTable [(RVal.num 2, "a"), (RVal.num 2, "b")]

/-- The spec's three-row scenario table, keys `3, 1, 2`. -/
def scenTable : ApopData :=
  mkTable [(RVal.num 3, "c"), (RVal.num 1, "a"), (RVal.num 2, "b")]

/-- A table with a free-standing vector and no matrix. -/
def vecOnlyTable : ApopData :=
  { vecPresent := true, matPresent := false,
    rows := [{ vec := RVal.num 7, mat := [], txt := [] }] }

/-- A table with a matrix component. -/
def matOnlyTable : ApopData :=
  { vecPresent := false, matPresent := true,
    rows := [{ vec := RVal.num 0, mat := [RVal.num 7], txt := [] }] }

/-! Correctness of the generic in-place machinery. -/

/-- One step of the scan while the cursor is below `height`. -/
theorem find_min_unsorted_step (srt : Nat → Bool) (height m : Nat) (hm : m < height) :
    find_min_unsorted srt height m =
      if !(srt m) then (m : Int) else find_min_unsorted srt height (m + 1) := by
  show find_min_go srt m (height - m) = _
  have h1 : height - m = (height - (m + 1)) + 1 := by omega
  rw [h1]
  rfl

/-- The scan past the end returns `-1`. -/
theorem find_min_unsorted_none (srt : Nat → Bool) (height m : Nat) (hm : ¬m < height) :
    find_min_unsorted srt height m = -1 := by
  show find_min_go srt m (height - m) = -1
  have h0 : height - m = 0 := by omega
  rw [h0]
  rfl

/-- One swap step of the reversal loop while `j < height / 2`. -/
theorem revLoop_step (height j : Nat) (p : Nat → Nat) (hj : j < height / 2) :
    revLoop height j p =
      revLoop height (j + 1)
        (Function.update (Function.update p j (p (height - 1 - j)))
          (height - 1 - j) (p j)) := by
  show revLoop_go height j (height / 2 - j) p = revLoop_go height (j + 1) (height / 2 - (j + 1)) _
  have h1 : height / 2 - j = (height / 2 - (j + 1)) + 1 := by omega
  rw [h1]
  rfl

/-- The reversal loop at or past the midpoint is done. -/
theorem revLoop_done (height j : Nat) (p : Nat → Nat) (hj : ¬j < height / 2) :
    revLoop height j p = p := by
  show revLoop_go height j (height / 2 - j) p = p
  have h0 : height / 2 - j = 0 := by omega
  rw [h0]
  rfl

/-- One step of the fill loop while `j < N`. -/
theorem hFill_step (s : ℤ) (j : Nat) (vals : List ℚ) (N : Nat) (hj : j < N) :
    hFill s j vals N =
      hFill s (j + 1) (vals.set j (vals.getD (j - 1) 0 + hterm s (j + 1))) N := by
  show hFill_go s j (N - j) vals = hFill_go s (j + 1) (N - (j + 1)) _
  have h1 : N - j = (N - (j + 1)) + 1 := by omega
  rw [h1]
  rfl

/-- The fill loop at or past `N` is done. -/
theorem hFill_done (s : ℤ) (j : Nat) (vals : List ℚ) (N : Nat) (hj : ¬j < N) :
    hFill s j vals N = vals := by
  show hFill_go s j (N - j) vals = vals
  have h0 : N - j = 0 := by omega
  rw [h0]
  rfl

/-- Full behaviour of the `find_min_unsorted` scan: either every index in
`[m, height)` is marked and the result is `-1`, or the result is the least
unmarked index at or after `m`. -/
theorem find_min_spec (srt : Nat → Bool) (height : Nat) :
    ∀ k m, height - m ≤ k →
      (find_min_unsorted srt height m = -1 ∧ ∀ j, m ≤ j → j < height → srt j = true)
      ∨ (∃ s : Nat, find_min_unsorted srt height m = (s : Int) ∧ m ≤ s ∧ s < height ∧
          srt s = false ∧ ∀ j, m ≤ j → j < s → srt j = true) := by
  intro k
  induction k with
  | zero =>
    intro m hk
    left
    rw [find_min_unsorted_none srt height m (by omega)]
    exact ⟨rfl, fun j hmj hj => by omega⟩
  | succ k ih =>
    intro m hk
    by_cases hm : m < height
    · rw [find_min_unsorted_step srt height m hm]
      by_cases hs : srt m
      · simp only [hs, Bool.not_true, Bool.false_eq_true, if_false]
        rcases ih (m + 1) (by omega) with ⟨h1, h2⟩ | ⟨s, h1, h2, h3, h4, h5⟩
        · exact Or.inl ⟨h1, fun j hmj hj =>
            if hjm : j = m then hjm ▸ hs else h2 j (by omega) hj⟩
        · exact Or.inr ⟨s, h1, by omega, h3, h4, fun j hmj hj =>
            if hjm : j = m then hjm ▸ hs else h5 j (by omega) hj⟩
      · right
        refine ⟨m, ?_, Nat.le_refl m, hm, by simpa using hs, fun j hmj hj => by omega⟩
        simp only [Bool.not_eq_true] at hs
        simp [hs]
    · rw [find_min_unsorted_none srt height m hm]
      exact Or.inl ⟨rfl, fun j hmj hj => by omega⟩

/-- A point returning to itself after `t` steps makes the iterates
`t`-periodic. -/
theorem iterate_periodic (p : Nat → Nat) (i : Nat) (t : Nat) (hp : p^[t] i = i) :
    ∀ q r, p^[q * t + r] i = p^[r] i := by
  intro q
  induction q with
  | zero => simp
  | succ q ih =>
    intro r
    have hq : (q + 1) * t + r = (q * t + r) + t := by ring
    rw [hq, Function.iterate_add_apply, hp]
    exact ih r

/-- Iterates of a self-map of `[0, n)` stay in `[0, n)`. -/
theorem iterate_lt (p : Nat → Nat) (n : Nat) (hr : ∀ j, j < n → p j < n)
    (i : Nat) (hi : i < n) : ∀ t, p^[t] i < n := by
  intro t
  induction t with
  | zero => simpa
  | succ t ih => rw [Function.iterate_succ_apply']; exact hr _ ih

/-- Iterates of a map injective on `[0, n)` can be cancelled. -/
theorem iterate_cancel (p : Nat → Nat) (n : Nat) (hr : ∀ j, j < n → p j < n)
    (hinj : ∀ a, a < n → ∀ b, b < n → p a = p b → a = b)
    (i j : Nat) (hi : i < n) (hj : j < n) :
    ∀ t, p^[t] i = p^[t] j → i = j := by
  intro t
  induction t with
  | zero => simp
  | succ t ih =>
    rw [Function.iterate_succ_apply', Function.iterate_succ_apply']
    intro h
    exact ih (hinj _ (iterate_lt p n hr i hi t) _ (iterate_lt p n hr j hj t) h)

/-- On the way around a cycle that first comes back to `s` after `m + 1`
steps, no intermediate iterate returns to the starting point `i`. -/
theorem cycle_no_return (p : Nat → Nat) (i s : Nat) (m : Nat)
    (hclose : p^[m + 1] i = s) (hmin : ∀ t, 1 ≤ t → t ≤ m → p^[t] i ≠ s) :
    ∀ t, 1 ≤ t → t ≤ m → p^[t] i ≠ i := by
  intro t h1 hm hcontra
  have hper := iterate_periodic p i t hcontra
  have hdm : (m + 1) / t * t + (m + 1) % t = m + 1 := Nat.div_add_mod' (m + 1) t
  have hs' : p^[(m + 1) % t] i = s := by
    have h2 := hper ((m + 1) / t) ((m + 1) % t)
    rw [hdm] at h2
    rw [← h2, hclose]
  rcases Nat.eq_zero_or_pos ((m + 1) % t) with h0 | hpos
  · rw [h0] at hs'
    exact hmin t h1 hm (hcontra.trans hs')
  · have hlt : (m + 1) % t < t := Nat.mod_lt _ (by omega)
    exact hmin _ hpos (by omega) hs'

/-- Behaviour of the inner cycle loop entered at `i`, when the cycle first
closes on `start = s` after exactly `m + 1` steps: positions off the trail
`i, p i, …, p^[m] i` are untouched; the trail receives the shifted contents
(each trail slot reads the entry-time value one step further along); the
closing slot receives `tmp`; the strictly-later trail slots get marked; and
the mark of the entry slot itself is left alone. -/
theorem applyCycle_spec {α : Type} (p : Nat → Nat) (n : Nat)
    (hr : ∀ j, j < n → p j < n) (s : Nat) (tmp : α) :
    ∀ m fuel, m < fuel → ∀ i, i < n →
      p^[m + 1] i = s → (∀ t, 1 ≤ t → t ≤ m → p^[t] i ≠ s) →
      ∀ (cur : Nat → α) (srt : Nat → Bool),
      (∀ j, (∀ t, t ≤ m → j ≠ p^[t] i) →
        (applyCycle p s tmp fuel cur srt i).1 j = cur j ∧
        (applyCycle p s tmp fuel cur srt i).2 j = srt j)
      ∧ (∀ t, t < m →
        (applyCycle p s tmp fuel cur srt i).1 (p^[t] i) = cur (p^[t + 1] i))
      ∧ (applyCycle p s tmp fuel cur srt i).1 (p^[m] i) = tmp
      ∧ (∀ t, 1 ≤ t → t ≤ m →
        (applyCycle p s tmp fuel cur srt i).2 (p^[t] i) = true)
      ∧ (applyCycle p s tmp fuel cur srt i).2 i = srt i := by
  intro m
  induction m with
  | zero =>
    intro fuel hfuel i hi hclose hmin cur srt
    obtain ⟨f, rfl⟩ : ∃ f, fuel = f + 1 := ⟨fuel - 1, by omega⟩
    have hps : p i = s := by simpa using hclose
    rw [applyCycle, if_pos hps]
    refine ⟨?_, ?_, ?_, ?_, rfl⟩
    · intro j hj
      have hji : j ≠ i := by simpa using hj 0 (Nat.le_refl 0)
      exact ⟨Function.update_noteq hji _ _, rfl⟩
    · intro t ht; omega
    · simp
    · intro t ht1 ht0; omega
  | succ m ih =>
    intro fuel hfuel i hi hclose hmin cur srt
    obtain ⟨f, rfl⟩ : ∃ f, fuel = f + 1 := ⟨fuel - 1, by omega⟩
    have hne : p i ≠ s := by
      have := hmin 1 (Nat.le_refl 1) (by omega)
      simpa using this
    rw [applyCycle, if_neg hne]
    set cur1 := Function.update cur i (cur (p i)) with hcur1
    set srt1 := Function.update srt (p i) true with hsrt1
    have hclose' : p^[m + 1] (p i) = s := by
      rw [← Function.iterate_succ_apply]; exact hclose
    have hmin' : ∀ t, 1 ≤ t → t ≤ m → p^[t] (p i) ≠ s := by
      intro t h1 hm
      rw [← Function.iterate_succ_apply]
      exact hmin (t + 1) (by omega) (by omega)
    have noret : ∀ t, 1 ≤ t → t ≤ m + 1 → p^[t] i ≠ i :=
      cycle_no_return p i s (m + 1) hclose hmin
    obtain ⟨c1, c2, c3, c4, c5⟩ :=
      ih f (by omega) (p i) (hr i hi) hclose' hmin' cur1 srt1
    have hshift : ∀ t, p^[t] (p i) = p^[t + 1] i := fun t =>
      (Function.iterate_succ_apply p t i).symm
    refine ⟨?_, ?_, ?_, ?_, ?_⟩
    · -- untouched positions
      intro j hj
      have hj' : ∀ t, t ≤ m → j ≠ p^[t] (p i) := by
        intro t ht
        rw [hshift]
        exact hj (t + 1) (by omega)
      obtain ⟨e1, e2⟩ := c1 j hj'
      constructor
      · rw [e1, hcur1, Function.update_noteq (by simpa using hj 0 (Nat.zero_le _)) _ _]
      · rw [e2, hsrt1, Function.update_noteq ?_ _ _]
        have := hj 1 (by omega)
        simpa using this
    · -- trail values, in terms of the entry-time table
      intro t ht
      match t with
      | 0 =>
        have hji : ∀ u, u ≤ m → (i : Nat) ≠ p^[u] (p i) := by
          intro u hu
          rw [hshift]
          exact fun hcon => noret (u + 1) (by omega) (by omega) hcon.symm
        obtain ⟨e1, _⟩ := c1 i hji
        have : cur1 i = cur (p i) := by
          rw [hcur1]; exact Function.update_same i _ cur
        simpa using e1.trans this
      | u + 1 =>
        have e2 := c2 u (by omega)
        rw [hshift, hshift] at e2
        have hc : cur1 (p^[u + 1 + 1] i) = cur (p^[u + 1 + 1] i) := by
          rw [hcur1]
          exact Function.update_noteq (noret (u + 2) (by omega) (by omega)) _ _
        exact e2.trans hc
    · -- the closing slot holds tmp
      have hc := c3
      rw [hshift] at hc
      exact hc
    · -- marks along the cycle
      intro t ht1 htm
      match t, ht1 with
      | 1, _ =>
        rw [show p^[1] i = p i from by simp, c5, hsrt1]
        exact Function.update_same (p i) true srt
      | u + 2, _ =>
        have e4 := c4 (u + 1) (by omega) (by omega)
        rw [hshift] at e4
        exact e4
    · -- the entry slot's mark is unchanged
      have hji : ∀ u, u ≤ m → (i : Nat) ≠ p^[u] (p i) := by
        intro u hu
        rw [hshift]
        exact fun hcon => noret (u + 1) (by omega) (by omega) hcon.symm
      obtain ⟨_, e2⟩ := c1 i hji
      rw [e2, hsrt1]
      have hip : i ≠ p i := by
        have h1 := noret 1 (by omega) (by omega)
        simp only [Function.iterate_one] at h1
        exact Ne.symm h1
      exact Function.update_noteq hip _ _

/-- Main invariant argument for the outer loop of `apop_data_sort`: if the
marked slots already hold their final rows, the unmarked slots still hold
their original rows, everything below the scan cursor is marked, and the
marked set is closed under `p` in both directions, then the loop finishes
the job: every slot `j < n` ends up holding `orig (p j)`. -/
theorem sortLoop_spec {α : Type} (p : Nat → Nat) (n : Nat)
    (hr : ∀ j, j < n → p j < n)
    (hinj : ∀ a, a < n → ∀ b, b < n → p a = p b → a = b)
    (orig : Nat → α) :
    ∀ fuel (cur : Nat → α) (srt : Nat → Bool) (start : Nat),
      ((Finset.range n).filter (fun j => srt j = false)).card < fuel →
      (∀ j, j < n → srt j = true → cur j = orig (p j)) →
      (∀ j, j < n → srt j = false → cur j = orig j) →
      (∀ j, j < start → j < n → srt j = true) →
      (∀ j, j < n → srt (p j) = srt j) →
      ∀ j, j < n → sortLoop p n fuel cur srt start j = orig (p j) := by
  intro fuel
  induction fuel with
  | zero => intro cur srt start hf; omega
  | succ fuel ih =>
    intro cur srt start hf inv1 inv2 inv3 inv4 j hj
    rcases find_min_spec srt n n start (by omega) with
      ⟨hfe, hall⟩ | ⟨s, hfe, hrs, hsn, hss, hscan⟩
    · -- the scan found nothing: all slots are marked, so all rows are final
      rw [sortLoop]
      simp only [hfe, if_pos rfl]
      refine inv1 j hj ?_
      by_cases hjs : start ≤ j
      · exact hall j hjs hj
      · exact inv3 j (by omega) hj
    · -- the scan found the least unmarked slot s: rotate its cycle
      rw [sortLoop]
      have hne : ¬((s : Int) = -1) := by omega
      simp only [hfe, if_neg hne, Int.toNat_natCast]
      set srt1 := Function.update srt s true with hsrt1
      -- s has a positive period at most n
      have hkey : ∀ a b : Nat, a < b → b ≤ n → p^[a] s = p^[b] s →
          ∃ t, (1 ≤ t ∧ t ≤ n) ∧ p^[t] s = s := by
        intro a b hab hbn heq
        have hd : p^[a] s = p^[a] (p^[b - a] s) := by
          rw [← Function.iterate_add_apply]
          rw [show a + (b - a) = b by omega]
          exact heq
        have := iterate_cancel p n hr hinj s (p^[b - a] s) hsn
          (iterate_lt p n hr s hsn _) a hd
        exact ⟨b - a, ⟨by omega, by omega⟩, this.symm⟩
      have hper : ∃ t, (1 ≤ t ∧ t ≤ n) ∧ p^[t] s = s := by
        obtain ⟨a, b, hab, heq⟩ :=
          Fintype.exists_ne_map_eq_of_card_lt
            (fun t : Fin (n + 1) => (⟨p^[(t : Nat)] s, iterate_lt p n hr s hsn _⟩ : Fin n))
            (by simp)
        have heqv : p^[(a : Nat)] s = p^[(b : Nat)] s := congrArg Fin.val heq
        have habv : (a : Nat) ≠ (b : Nat) := fun h => hab (Fin.ext h)
        rcases Nat.lt_or_ge (a : Nat) (b : Nat) with hlt | hgt
        · exact hkey a b hlt (by omega) heqv
        · exact hkey b a (by omega) (by omega) heqv.symm
      obtain ⟨d, ⟨hd1, hdn⟩, hdclose⟩ := hper
      have hper' : ∃ t, 1 ≤ t ∧ p^[t] s = s := ⟨d, hd1, hdclose⟩
      have hT1 : 1 ≤ Nat.find hper' := (Nat.find_spec hper').1
      have hTclose : p^[Nat.find hper'] s = s := (Nat.find_spec hper').2
      have hTn : Nat.find hper' ≤ n := Nat.le_trans (Nat.find_min' hper' ⟨hd1, hdclose⟩) hdn
      set m := Nat.find hper' - 1 with hmdef
      have hclose : p^[m + 1] s = s := by
        rw [show m + 1 = Nat.find hper' by omega]
        exact hTclose
      have hminT : ∀ t, 1 ≤ t → t ≤ m → p^[t] s ≠ s := by
        intro t h1 h2 hcon
        exact Nat.find_min hper' (by omega) ⟨h1, hcon⟩
      obtain ⟨c1, c2, c3, c4, c5⟩ :=
        applyCycle_spec p n hr s (cur s) m n (by omega) s hsn hclose hminT cur srt1
      set res := applyCycle p s (cur s) n cur srt1 s with hres
      -- the cycle of s is unmarked in srt
      have hsame : ∀ t, srt (p^[t] s) = srt s := by
        intro t
        induction t with
        | zero => rfl
        | succ t iht =>
          rw [Function.iterate_succ_apply', inv4 _ (iterate_lt p n hr s hsn t)]
          exact iht
      -- final values on the cycle slots
      have hvals : ∀ t, t ≤ m → res.1 (p^[t] s) = orig (p (p^[t] s)) := by
        intro t ht
        rcases Nat.lt_or_ge t m with htm | htm
        · rw [c2 t htm]
          have h1 : srt (p^[t + 1] s) = false := by rw [hsame]; exact hss
          rw [inv2 _ (iterate_lt p n hr s hsn _) h1, Function.iterate_succ_apply']
        · have htm' : t = m := by omega
          rw [htm', c3, inv2 s hsn hss]
          have h1 : p (p^[m] s) = s := by
            rw [← Function.iterate_succ_apply' p m s]
            exact hclose
          rw [h1]
      -- marks on the cycle slots
      have hmarks : ∀ t, t ≤ m → res.2 (p^[t] s) = true := by
        intro t ht
        rcases Nat.eq_zero_or_pos t with h0 | h1
        · subst h0
          simp only [Function.iterate_zero_apply]
          rw [c5, hsrt1]
          exact Function.update_same s true srt
        · exact c4 t h1 ht
      -- closure of the cycle under p, both directions
      have hpre : ∀ j2, j2 < n → (∃ t, t ≤ m ∧ p^[t] s = p j2) →
          ∃ t, t ≤ m ∧ p^[t] s = j2 := by
        intro j2 hj2 ⟨t, ht, heq⟩
        match t, ht, heq with
        | 0, _, heq =>
          have h1 : p (p^[m] s) = p j2 := by
            rw [← Function.iterate_succ_apply' p m s, hclose]
            simpa using heq
          exact ⟨m, Nat.le_refl m,
            hinj _ (iterate_lt p n hr s hsn m) _ hj2 h1⟩
        | u + 1, hu, heq =>
          have h1 : p (p^[u] s) = p j2 := by
            rw [← Function.iterate_succ_apply' p u s]
            exact heq
          exact ⟨u, by omega, hinj _ (iterate_lt p n hr s hsn u) _ hj2 h1⟩
      have him : ∀ j2, (∃ t, t ≤ m ∧ p^[t] s = j2) →
          ∃ t, t ≤ m ∧ p^[t] s = p j2 := by
        intro j2 ⟨t, ht, heq⟩
        rcases Nat.lt_or_ge t m with htm | htm
        · exact ⟨t + 1, by omega, by rw [Function.iterate_succ_apply', heq]⟩
        · have htm' : t = m := by omega
          subst htm'
          refine ⟨0, Nat.zero_le m, ?_⟩
          simp only [Function.iterate_zero_apply]
          rw [← heq, ← Function.iterate_succ_apply' p m s, hclose]
      -- the four invariants for the next round
      have inv1' : ∀ j2, j2 < n → res.2 j2 = true → res.1 j2 = orig (p j2) := by
        intro j2 hj2 hm2
        by_cases hcy : ∃ t, t ≤ m ∧ p^[t] s = j2
        · obtain ⟨t, ht, rfl⟩ := hcy
          exact hvals t ht
        · have guard : ∀ t, t ≤ m → j2 ≠ p^[t] s :=
            fun t ht hcon => hcy ⟨t, ht, hcon.symm⟩
          obtain ⟨e1, e2⟩ := c1 j2 guard
          have hj2s : j2 ≠ s := fun hcon => hcy ⟨0, Nat.zero_le m, by simpa using hcon.symm⟩
          rw [e1]
          refine inv1 j2 hj2 ?_
          rw [e2, hsrt1] at hm2
          rwa [Function.update_noteq hj2s] at hm2
      have inv2' : ∀ j2, j2 < n → res.2 j2 = false → res.1 j2 = orig j2 := by
        intro j2 hj2 hm2
        by_cases hcy : ∃ t, t ≤ m ∧ p^[t] s = j2
        · obtain ⟨t, ht, rfl⟩ := hcy
          rw [hmarks t ht] at hm2
          cases hm2
        · have guard : ∀ t, t ≤ m → j2 ≠ p^[t] s :=
            fun t ht hcon => hcy ⟨t, ht, hcon.symm⟩
          obtain ⟨e1, e2⟩ := c1 j2 guard
          have hj2s : j2 ≠ s := fun hcon => hcy ⟨0, Nat.zero_le m, by simpa using hcon.symm⟩
          rw [e1]
          refine inv2 j2 hj2 ?_
          rw [e2, hsrt1] at hm2
          rwa [Function.update_noteq hj2s] at hm2
      have inv3' : ∀ j2, j2 < s → j2 < n → res.2 j2 = true := by
        intro j2 hj2s hj2
        by_cases hcy : ∃ t, t ≤ m ∧ p^[t] s = j2
        · obtain ⟨t, ht, rfl⟩ := hcy
          exact hmarks t ht
        · have guard : ∀ t, t ≤ m → j2 ≠ p^[t] s :=
            fun t ht hcon => hcy ⟨t, ht, hcon.symm⟩
          obtain ⟨_, e2⟩ := c1 j2 guard
          have hj2ne : j2 ≠ s := by omega
          rw [e2, hsrt1, Function.update_noteq hj2ne]
          by_cases hjst : j2 < start
          · exact inv3 j2 hjst hj2
          · exact hscan j2 (by omega) hj2s
      have inv4' : ∀ j2, j2 < n → res.2 (p j2) = res.2 j2 := by
        intro j2 hj2
        by_cases hcy : ∃ t, t ≤ m ∧ p^[t] s = j2
        · obtain ⟨u, hu, hequ⟩ := him j2 hcy
          obtain ⟨t, ht, rfl⟩ := hcy
          rw [← hequ, hmarks u hu, hmarks t ht]
        · have hcyp : ¬∃ t, t ≤ m ∧ p^[t] s = p j2 :=
            fun hcon => hcy (hpre j2 hj2 hcon)
          have guard : ∀ t, t ≤ m → j2 ≠ p^[t] s :=
            fun t ht hcon => hcy ⟨t, ht, hcon.symm⟩
          have guardp : ∀ t, t ≤ m → p j2 ≠ p^[t] s :=
            fun t ht hcon => hcyp ⟨t, ht, hcon.symm⟩
          obtain ⟨_, e2⟩ := c1 j2 guard
          obtain ⟨_, e2p⟩ := c1 (p j2) guardp
          have hj2s : j2 ≠ s := fun hcon => hcy ⟨0, Nat.zero_le m, by simpa using hcon.symm⟩
          have hpj2s : p j2 ≠ s := fun hcon => hcyp ⟨0, Nat.zero_le m, by simpa using hcon.symm⟩
          rw [e2, e2p, hsrt1, Function.update_noteq hj2s, Function.update_noteq hpj2s]
          exact inv4 j2 hj2
      have hcard : ((Finset.range n).filter (fun j2 => res.2 j2 = false)).card < fuel := by
        have hmem : s ∈ (Finset.range n).filter (fun j2 => srt j2 = false) :=
          Finset.mem_filter.mpr ⟨Finset.mem_range.mpr hsn, hss⟩
        have hsub : ((Finset.range n).filter (fun j2 => res.2 j2 = false)) ⊆
            ((Finset.range n).filter (fun j2 => srt j2 = false)).erase s := by
          intro j2 hj2f
          simp only [Finset.mem_filter, Finset.mem_range] at hj2f
          obtain ⟨hj2n, hj2false⟩ := hj2f
          have hcy : ¬∃ t, t ≤ m ∧ p^[t] s = j2 := by
            intro hcon
            obtain ⟨t, ht, rfl⟩ := hcon
            rw [hmarks t ht] at hj2false
            cases hj2false
          have guard : ∀ t, t ≤ m → j2 ≠ p^[t] s :=
            fun t ht hcon => hcy ⟨t, ht, hcon.symm⟩
          obtain ⟨_, e2⟩ := c1 j2 guard
          have hj2s : j2 ≠ s := fun hcon => hcy ⟨0, Nat.zero_le m, by simpa using hcon.symm⟩
          rw [e2, hsrt1, Function.update_noteq hj2s] at hj2false
          exact Finset.mem_erase.mpr ⟨hj2s,
            Finset.mem_filter.mpr ⟨Finset.mem_range.mpr hj2n, hj2false⟩⟩
        have h1 := Finset.card_le_card hsub
        rw [Finset.card_erase_of_mem hmem] at h1
        have h2 : 0 < ((Finset.range n).filter (fun j2 => srt j2 = false)).card :=
          Finset.card_pos.mpr ⟨s, hmem⟩
        omega
      exact ih res.1 res.2 s hcard inv1' inv2' inv3' inv4' j hj

/-- The in-place cycle-following application of a permutation of `[0, n)`
computes, on every index below `n`, exactly the naive out-of-place
permutation application. -/
theorem applyPermInPlace_eq_naive {α : Type} (p : Nat → Nat) (n : Nat)
    (hr : ∀ j, j < n → p j < n)
    (hinj : ∀ a, a < n → ∀ b, b < n → p a = p b → a = b)
    (rows : Nat → α) :
    ∀ j, j < n → applyPermInPlace p n rows j = naiveApplyPerm p rows j := by
  intro j hj
  refine sortLoop_spec p n hr hinj rows (n + 1) rows (fun _ => false) 0 ?_
    (fun j2 _ h => by cases h) (fun j2 _ _ => rfl) (fun j2 h _ => by omega)
    (fun j2 _ => rfl) j hj
  exact Nat.lt_succ_of_le
    (le_trans (Finset.card_filter_le _ _) (le_of_eq (Finset.card_range n)))

/-- Invariant of the reversal loop: entering at cursor `j0` with table `p`,
slots in `[j0, n-1-j0]` end up reversed, the already-swapped outer slots are
left as given. -/
theorem revLoop_spec (n : Nat) :
    ∀ fuel j0 (p : Nat → Nat), n / 2 - j0 ≤ fuel →
      ∀ k, k < n → revLoop n j0 p k =
        if j0 ≤ k ∧ k ≤ n - 1 - j0 then p (n - 1 - k) else p k := by
  intro fuel
  induction fuel with
  | zero =>
    intro j0 p hf k hk
    rw [revLoop_done n j0 p (by omega : ¬j0 < n / 2)]
    by_cases hc : j0 ≤ k ∧ k ≤ n - 1 - j0
    · rw [if_pos hc]
      congr 1
      omega
    · rw [if_neg hc]
  | succ fuel ih =>
    intro j0 p hf k hk
    by_cases hj : j0 < n / 2
    · rw [revLoop_step n j0 p hj, ih (j0 + 1) _ (by omega) k hk]
      by_cases hc : j0 + 1 ≤ k ∧ k ≤ n - 1 - (j0 + 1)
      · rw [if_pos hc, if_pos (by omega : j0 ≤ k ∧ k ≤ n - 1 - j0)]
        rw [Function.update_noteq (by omega : n - 1 - k ≠ n - 1 - j0)]
        rw [Function.update_noteq (by omega : n - 1 - k ≠ j0)]
      · rw [if_neg hc]
        by_cases hck : j0 ≤ k ∧ k ≤ n - 1 - j0
        · rw [if_pos hck]
          by_cases hkj : k = j0
          · rw [hkj]
            rw [Function.update_noteq (by omega : j0 ≠ n - 1 - j0), Function.update_same]
          · have hkj2 : k = n - 1 - j0 := by omega
            rw [hkj2, Function.update_same]
            congr 1
            omega
        · rw [if_neg hck]
          rw [Function.update_noteq (by omega : k ≠ n - 1 - j0)]
          rw [Function.update_noteq (by omega : k ≠ j0)]
    · rw [revLoop_done n j0 p hj]
      by_cases hc : j0 ≤ k ∧ k ≤ n - 1 - j0
      · rw [if_pos hc]
        congr 1
        omega
      · rw [if_neg hc]

/-- The reversal loop of `apop_data_sort` computes exactly the reversal of
the permutation array: slot `k` ends up holding the old slot `n - 1 - k`. -/
theorem revLoop_reverses (n : Nat) (p : Nat → Nat) :
    ∀ k, k < n → revLoop n 0 p k = p (n - 1 - k) := by
  intro k hk
  rw [revLoop_spec n (n / 2) 0 p (by omega) k hk,
    if_pos (by omega : 0 ≤ k ∧ k ≤ n - 1 - 0)]

/-! Facts about the spec-modelled index-sort primitive. -/

theorem nonNanPos_nodup (keys : Nat → RVal) (n : Nat) : (nonNanPos keys n).Nodup :=
  (List.nodup_range n).filter _

theorem sortedNonNanPos_perm (keys : Nat → RVal) (n : Nat) :
    List.Perm (sortedNonNanPos keys n) (nonNanPos keys n) :=
  List.perm_insertionSort _ _

theorem sortedNonNanPos_nodup (keys : Nat → RVal) (n : Nat) :
    (sortedNonNanPos keys n).Nodup :=
  (sortedNonNanPos_perm keys n).nodup_iff.mpr (nonNanPos_nodup keys n)

theorem sortedNonNanPos_length (keys : Nat → RVal) (n : Nat) :
    (sortedNonNanPos keys n).length = (nonNanPos keys n).length :=
  (sortedNonNanPos_perm keys n).length_eq

theorem sortedNonNanPos_sorted (keys : Nat → RVal) (n : Nat) :
    List.Sorted (keyLE keys) (sortedNonNanPos keys n) := by
  haveI h1 : IsTotal Nat (keyLE keys) := ⟨fun a b => le_total _ _⟩
  haveI h2 : IsTrans Nat (keyLE keys) := ⟨fun a b c => le_trans⟩
  exact List.sorted_insertionSort _ _

theorem mem_nonNanPos (keys : Nat → RVal) (n : Nat) (j : Nat) :
    j ∈ nonNanPos keys n ↔ j < n ∧ isNanKey (keys j) = false := by
  unfold nonNanPos
  rw [List.mem_filter, List.mem_range]
  simp

/-- Counting non-NaN slots one step further. -/
theorem nonNanRank_succ (keys : Nat → RVal) (j : Nat) :
    nonNanRank keys (j + 1) =
      nonNanRank keys j + (if isNanKey (keys j) then 0 else 1) := by
  unfold nonNanRank
  rw [List.range_succ, List.filter_append, List.length_append]
  congr 1
  by_cases h : isNanKey (keys j)
  · simp [h]
  · simp [h]

theorem nonNanRank_mono (keys : Nat → RVal) (a : Nat) :
    ∀ b, a ≤ b → nonNanRank keys a ≤ nonNanRank keys b := by
  intro b
  induction b with
  | zero =>
    intro h
    have ha : a = 0 := by omega
    rw [ha]
  | succ b ih =>
    intro h
    by_cases hab : a ≤ b
    · refine le_trans (ih hab) ?_
      rw [nonNanRank_succ]
      omega
    · have ha : a = b + 1 := by omega
      rw [ha]

/-- The rank of a non-NaN slot below `n` is an index into the non-NaN list. -/
theorem nonNanRank_lt (keys : Nat → RVal) (n j : Nat) (hj : j < n)
    (hnan : isNanKey (keys j) = false) :
    nonNanRank keys j < (nonNanPos keys n).length := by
  have h1 : nonNanRank keys (j + 1) = nonNanRank keys j + 1 := by
    rw [nonNanRank_succ, hnan]
    simp
  have h2 : nonNanRank keys (j + 1) ≤ nonNanRank keys n :=
    nonNanRank_mono keys (j + 1) n hj
  have h3 : (nonNanPos keys n).length = nonNanRank keys n := rfl
  omega

/-- Rank is strictly monotone along non-NaN slots. -/
theorem nonNanRank_strict (keys : Nat → RVal) (a b : Nat) (hab : a < b)
    (hnan : isNanKey (keys a) = false) :
    nonNanRank keys a < nonNanRank keys b := by
  have h1 : nonNanRank keys (a + 1) = nonNanRank keys a + 1 := by
    rw [nonNanRank_succ, hnan]
    simp
  have h2 : nonNanRank keys (a + 1) ≤ nonNanRank keys b :=
    nonNanRank_mono keys (a + 1) b hab
  omega

/-- The non-NaN position list, read at the rank of a non-NaN slot `j`,
gives back `j`. -/
theorem nonNanPos_getD_rank (keys : Nat → RVal) :
    ∀ n j, j < n → isNanKey (keys j) = false →
      (nonNanPos keys n).getD (nonNanRank keys j) 0 = j := by
  intro n
  induction n with
  | zero => intro j hj _; omega
  | succ n ih =>
    intro j hj hnan
    have hsplit : nonNanPos keys (n + 1) =
        nonNanPos keys n ++ (if isNanKey (keys n) then [] else [n]) := by
      unfold nonNanPos
      rw [List.range_succ, List.filter_append]
      congr 1
      by_cases h : isNanKey (keys n)
      · simp [h]
      · simp [h]
    rw [hsplit]
    by_cases hjn : j < n
    · rw [List.getD_append _ _ _ _ (nonNanRank_lt keys n j hjn hnan)]
      exact ih j hjn hnan
    · have hj' : j = n := by omega
      subst hj'
      have hlen : (nonNanPos keys j).length = nonNanRank keys j := rfl
      rw [List.getD_append_right _ _ _ _ (le_of_eq hlen)]
      rw [hlen, Nat.sub_self, hnan]
      simp

/-- The modelled `gsl_sort_vector_index` stays inside `[0, n)`. -/
theorem gsl_perm_lt (keys : Nat → RVal) (n : Nat) :
    ∀ j, j < n → gsl_sort_vector_index keys n j < n := by
  intro j hj
  unfold gsl_sort_vector_index
  by_cases h : isNanKey (keys j)
  · rw [if_pos h]; exact hj
  · rw [if_neg h]
    have hb : isNanKey (keys j) = false := by
      cases hc : isNanKey (keys j)
      · rfl
      · exact absurd hc h
    have hlt : nonNanRank keys j < (sortedNonNanPos keys n).length := by
      rw [sortedNonNanPos_length]
      exact nonNanRank_lt keys n j hj hb
    rw [List.getD_eq_get _ _ hlt]
    have hmem : (sortedNonNanPos keys n).get ⟨nonNanRank keys j, hlt⟩ ∈
        sortedNonNanPos keys n := List.get_mem _ _ _
    rw [(sortedNonNanPos_perm keys n).mem_iff, mem_nonNanPos] at hmem
    exact hmem.1

/-- A NaN-keyed slot is a fixed point of the modelled index sort. -/
theorem gsl_perm_nan_fix (keys : Nat → RVal) (n : Nat) (j : Nat)
    (h : isNanKey (keys j) = true) : gsl_sort_vector_index keys n j = j := by
  unfold gsl_sort_vector_index
  rw [if_pos h]

/-- A non-NaN slot below `n` is sent to a non-NaN slot. -/
theorem gsl_perm_nonnan (keys : Nat → RVal) (n : Nat) (j : Nat) (hj : j < n)
    (h : isNanKey (keys j) = false) :
    isNanKey (keys (gsl_sort_vector_index keys n j)) = false := by
  unfold gsl_sort_vector_index
  rw [if_neg (by rw [h]; exact fun hc => nomatch hc)]
  have hlt : nonNanRank keys j < (sortedNonNanPos keys n).length := by
    rw [sortedNonNanPos_length]
    exact nonNanRank_lt keys n j hj h
  rw [List.getD_eq_get _ _ hlt]
  have hmem : (sortedNonNanPos keys n).get ⟨nonNanRank keys j, hlt⟩ ∈
      sortedNonNanPos keys n := List.get_mem _ _ _
  rw [(sortedNonNanPos_perm keys n).mem_iff, mem_nonNanPos] at hmem
  exact hmem.2

/-- The modelled index sort is injective on `[0, n)`. -/
theorem gsl_perm_inj (keys : Nat → RVal) (n : Nat) :
    ∀ a, a < n → ∀ b, b < n →
      gsl_sort_vector_index keys n a = gsl_sort_vector_index keys n b → a = b := by
  intro a ha b hb heq
  by_cases hna : isNanKey (keys a) <;> by_cases hnb : isNanKey (keys b)
  · rwa [gsl_perm_nan_fix keys n a hna, gsl_perm_nan_fix keys n b hnb] at heq
  · exfalso
    have hfb : isNanKey (keys b) = false := by
      cases hc : isNanKey (keys b)
      · rfl
      · exact absurd hc hnb
    have h1 := gsl_perm_nonnan keys n b hb hfb
    rw [← heq, gsl_perm_nan_fix keys n a hna, hna] at h1
    cases h1
  · exfalso
    have hfa : isNanKey (keys a) = false := by
      cases hc : isNanKey (keys a)
      · rfl
      · exact absurd hc hna
    have h1 := gsl_perm_nonnan keys n a ha hfa
    rw [heq, gsl_perm_nan_fix keys n b hnb, hnb] at h1
    cases h1
  · have hfa : isNanKey (keys a) = false := by
      cases hc : isNanKey (keys a)
      · rfl
      · exact absurd hc hna
    have hfb : isNanKey (keys b) = false := by
      cases hc : isNanKey (keys b)
      · rfl
      · exact absurd hc hnb
    unfold gsl_sort_vector_index at heq
    rw [if_neg hna, if_neg hnb] at heq
    have hla : nonNanRank keys a < (sortedNonNanPos keys n).length := by
      rw [sortedNonNanPos_length]
      exact nonNanRank_lt keys n a ha hfa
    have hlb : nonNanRank keys b < (sortedNonNanPos keys n).length := by
      rw [sortedNonNanPos_length]
      exact nonNanRank_lt keys n b hb hfb
    rw [List.getD_eq_get _ _ hla, List.getD_eq_get _ _ hlb] at heq
    have hrank : nonNanRank keys a = nonNanRank keys b := by
      have := ((sortedNonNanPos_nodup keys n).get_inj_iff).mp heq
      exact congrArg Fin.val this
    by_contra hne
    rcases Nat.lt_or_ge a b with hab | hab
    · exact absurd hrank (Nat.ne_of_lt (nonNanRank_strict keys a b hab hfa))
    · have hba : b < a := by omega
      exact absurd hrank.symm (Nat.ne_of_lt (nonNanRank_strict keys b a hba hfb))

/-- Ascending order of the modelled index sort on non-NaN slots: reading the
keys through the permutation, any two non-NaN slots appear in ascending
key order. -/
theorem gsl_perm_sorted (keys : Nat → RVal) (n : Nat) (a b : Nat)
    (hab : a < b) (hb : b < n)
    (hfa : isNanKey (keys a) = false) (hfb : isNanKey (keys b) = false) :
    keyNum (keys (gsl_sort_vector_index keys n a)) ≤
      keyNum (keys (gsl_sort_vector_index keys n b)) := by
  unfold gsl_sort_vector_index
  rw [if_neg (by rw [hfa]; exact fun hc => nomatch hc)]
  rw [if_neg (by rw [hfb]; exact fun hc => nomatch hc)]
  have hla : nonNanRank keys a < (sortedNonNanPos keys n).length := by
    rw [sortedNonNanPos_length]
    exact nonNanRank_lt keys n a (by omega) hfa
  have hlb : nonNanRank keys b < (sortedNonNanPos keys n).length := by
    rw [sortedNonNanPos_length]
    exact nonNanRank_lt keys n b hb hfb
  rw [List.getD_eq_get _ _ hla, List.getD_eq_get _ _ hlb]
  exact (sortedNonNanPos_sorted keys n).rel_get_of_lt
    (by exact nonNanRank_strict keys a b hab hfa)

/-! Table-level facts about `apop_data_sort`. -/

/-- The applied index map stays inside `[0, n)`, in either direction. -/
theorem sortPerm_lt (keys : Nat → RVal) (n : Nat) (asc : Char) :
    ∀ j, j < n → sortPerm keys n asc j < n := by
  intro j hj
  unfold sortPerm
  by_cases h : asc = 'd' ∨ asc = 'D'
  · rw [if_pos h, revLoop_reverses n _ j hj]
    exact gsl_perm_lt keys n _ (by omega)
  · rw [if_neg h]
    exact gsl_perm_lt keys n j hj

/-- The applied index map is injective on `[0, n)`, in either direction. -/
theorem sortPerm_inj (keys : Nat → RVal) (n : Nat) (asc : Char) :
    ∀ a, a < n → ∀ b, b < n →
      sortPerm keys n asc a = sortPerm keys n asc b → a = b := by
  intro a ha b hb
  unfold sortPerm
  by_cases h : asc = 'd' ∨ asc = 'D'
  · rw [if_pos h, revLoop_reverses n _ a ha, revLoop_reverses n _ b hb]
    intro heq
    have := gsl_perm_inj keys n (n - 1 - a) (by omega) (n - 1 - b) (by omega) heq
    omega
  · rw [if_neg h]
    exact gsl_perm_inj keys n a ha b hb

/-- Reading a `getD` over a mapped range below the bound gives the function
value. -/
theorem getD_map_range {α : Type} (f : Nat → α) (n i : Nat) (hi : i < n) (d : α) :
    ((List.range n).map f).getD i d = f i := by
  have hlen : i < ((List.range n).map f).length := by simp [hi]
  rw [List.getD_eq_getElem _ _ hlen]
  simp

/-- Reassembling a list from its `getD` reads over its index range. -/
theorem map_getD_range {α : Type} (l : List α) (d : α) :
    (List.range l.length).map (fun i => l.getD i d) = l := by
  apply List.ext_getElem
  · simp
  · intro i h1 h2
    simp only [List.getElem_map, List.getElem_range]
    exact List.getD_eq_getElem _ _ h2

/-- The sorted table's row list, written through the naive permutation
application (the in-place loop provably computes it). -/
theorem apop_data_sort_rows (t : ApopData) (sortby : Int) (asc : Char) :
    (apop_data_sort t sortby asc).rows =
      (List.range t.rows.length).map
        (fun i => t.rows.getD
          (sortPerm (tableKeys t sortby) t.rows.length asc i) default) := by
  show (List.range t.rows.length).map _ = _
  apply List.map_congr_left
  intro i hi
  rw [List.mem_range] at hi
  exact applyPermInPlace_eq_naive _ _ (sortPerm_lt _ _ asc) (sortPerm_inj _ _ asc) _ i hi

/-- One row of the sorted table, as the original row the permutation picks. -/
theorem apop_data_sort_getD (t : ApopData) (sortby : Int) (asc : Char)
    (i : Nat) (hi : i < t.rows.length) :
    (apop_data_sort t sortby asc).rows.getD i default =
      t.rows.getD (sortPerm (tableKeys t sortby) t.rows.length asc i) default := by
  rw [apop_data_sort_rows]
  exact getD_map_range _ _ i hi _

/-- The key column of the sorted table is the original key column read
through the applied permutation. -/
theorem tableKeys_sort (t : ApopData) (sortby : Int) (asc : Char)
    (i : Nat) (hi : i < t.rows.length) :
    tableKeys (apop_data_sort t sortby asc) sortby i =
      tableKeys t sortby (sortPerm (tableKeys t sortby) t.rows.length asc i) := by
  show rowKey sortby _ = rowKey sortby _
  rw [apop_data_sort_getD t sortby asc i hi]

/-- Mapping a self-injection of `[0, n)` over `range n` permutes it. -/
theorem map_perm_range (p : Nat → Nat) (n : Nat)
    (hr : ∀ j, j < n → p j < n)
    (hinj : ∀ a, a < n → ∀ b, b < n → p a = p b → a = b) :
    List.Perm ((List.range n).map p) (List.range n) := by
  have hnodup : ((List.range n).map p).Nodup := by
    refine List.Nodup.map_on ?_ (List.nodup_range n)
    intro a ha b hb heq
    exact hinj a (List.mem_range.mp ha) b (List.mem_range.mp hb) heq
  have hsub : (List.range n).map p ⊆ List.range n := by
    intro x hx
    obtain ⟨a, ha, rfl⟩ := List.mem_map.mp hx
    exact List.mem_range.mpr (hr a (List.mem_range.mp ha))
  refine (List.subperm_of_subset hnodup hsub).perm_of_length_le ?_
  simp

/-- Sorting permutes the row list (rows compared with all their content). -/
theorem apop_data_sort_rows_perm (t : ApopData) (sortby : Int) (asc : Char) :
    List.Perm (apop_data_sort t sortby asc).rows t.rows := by
  rw [apop_data_sort_rows]
  have h1 : (List.range t.rows.length).map
      (fun i => t.rows.getD
        (sortPerm (tableKeys t sortby) t.rows.length asc i) default) =
      ((List.range t.rows.length).map
        (sortPerm (tableKeys t sortby) t.rows.length asc)).map
        (fun i => t.rows.getD i default) := by
    rw [List.map_map]
    apply List.map_congr_left
    intro a _
    rfl
  rw [h1]
  have h2 := (map_perm_range _ t.rows.length
    (sortPerm_lt (tableKeys t sortby) _ asc)
    (sortPerm_inj (tableKeys t sortby) _ asc)).map
      (fun i => t.rows.getD i default)
  refine h2.trans ?_
  rw [map_getD_range]

/-- In-bounds `getD` reads do not depend on the default. -/
theorem getD_irrel {α : Type} (l : List α) (i : Nat) (h : i < l.length) (d1 d2 : α) :
    l.getD i d1 = l.getD i d2 := by
  rw [List.getD_eq_getElem _ _ h, List.getD_eq_getElem _ _ h]

/-- On a key column whose non-NaN values are already ascending, the modelled
index sort is the identity on `[0, n)`. -/
theorem gsl_fixpoint_asc (keys : Nat → RVal) (n : Nat)
    (hsorted : ∀ b, b < n → ∀ a, a < b → isNanKey (keys a) = false →
      isNanKey (keys b) = false → keyNum (keys a) ≤ keyNum (keys b)) :
    ∀ j, j < n → gsl_sort_vector_index keys n j = j := by
  have hPsorted : List.Sorted (keyLE keys) (nonNanPos keys n) := by
    rw [List.Sorted, List.pairwise_iff_get]
    intro a b hab
    have hpl : List.Pairwise (· < ·) (nonNanPos keys n) :=
      List.Pairwise.sublist (List.filter_sublist _) (List.pairwise_lt_range n)
    have hlt := List.pairwise_iff_get.mp hpl a b hab
    have h1 : (nonNanPos keys n).get a ∈ nonNanPos keys n := List.get_mem _ _ _
    have h2 : (nonNanPos keys n).get b ∈ nonNanPos keys n := List.get_mem _ _ _
    rw [mem_nonNanPos] at h1 h2
    exact hsorted _ h2.1 _ hlt h1.2 h2.2
  have hS : sortedNonNanPos keys n = nonNanPos keys n := hPsorted.insertionSort_eq
  intro j hj
  unfold gsl_sort_vector_index
  by_cases h : isNanKey (keys j)
  · rw [if_pos h]
  · rw [if_neg h]
    have hb : isNanKey (keys j) = false := by
      cases hc : isNanKey (keys j)
      · rfl
      · exact absurd hc h
    have hlt : nonNanRank keys j < (nonNanPos keys n).length :=
      nonNanRank_lt keys n j hj hb
    rw [hS, getD_irrel _ _ hlt j 0]
    exact nonNanPos_getD_rank keys n j hj hb

/-- On an all-non-NaN strictly descending key column, the modelled index
sort is the full reversal of `[0, n)`. -/
theorem gsl_fixpoint_desc (keys : Nat → RVal) (n : Nat)
    (hnonan : ∀ j, j < n → isNanKey (keys j) = false)
    (hstrict : ∀ b, b < n → ∀ a, a < b → keyNum (keys b) < keyNum (keys a)) :
    ∀ k, k < n → gsl_sort_vector_index keys n k = n - 1 - k := by
  have hP : nonNanPos keys n = List.range n := by
    apply List.filter_eq_self.mpr
    intro a ha
    rw [List.mem_range] at ha
    rw [hnonan a ha]
    rfl
  have hSlen : (sortedNonNanPos keys n).length = n := by
    rw [sortedNonNanPos_length, hP, List.length_range]
  have hSmem : ∀ x ∈ sortedNonNanPos keys n, x < n := by
    intro x hx
    rw [(sortedNonNanPos_perm keys n).mem_iff, hP, List.mem_range] at hx
    exact hx
  have hdec : ∀ (a b : Fin (sortedNonNanPos keys n).length), a < b →
      (sortedNonNanPos keys n).get b < (sortedNonNanPos keys n).get a := by
    intro a b hab
    have hle := (sortedNonNanPos_sorted keys n).rel_get_of_lt hab
    have hga : (sortedNonNanPos keys n).get a ∈ sortedNonNanPos keys n :=
      List.get_mem _ _ _
    have hgb : (sortedNonNanPos keys n).get b ∈ sortedNonNanPos keys n :=
      List.get_mem _ _ _
    have hna := hSmem _ hga
    have hnb := hSmem _ hgb
    rcases Nat.lt_trichotomy ((sortedNonNanPos keys n).get b)
      ((sortedNonNanPos keys n).get a) with h | h | h
    · exact h
    · exfalso
      have hba : b = a := ((sortedNonNanPos_nodup keys n).get_inj_iff).mp h
      rw [hba] at hab
      exact lt_irrefl a hab
    · exact absurd hle (not_le.mpr (hstrict _ hnb _ h))
  have hub : ∀ iv (h : iv < (sortedNonNanPos keys n).length),
      (sortedNonNanPos keys n).get ⟨iv, h⟩ + iv ≤ n - 1 := by
    intro iv
    induction iv with
    | zero =>
      intro h
      have := hSmem _ (List.get_mem (sortedNonNanPos keys n) 0 h)
      omega
    | succ iv ih =>
      intro h
      have h' : iv < (sortedNonNanPos keys n).length := by omega
      have hd := hdec ⟨iv, h'⟩ ⟨iv + 1, h⟩ (Fin.mk_lt_mk.mpr (Nat.lt_succ_self iv))
      have := ih h'
      omega
  have hlb : ∀ dd iv (h : iv < (sortedNonNanPos keys n).length),
      (sortedNonNanPos keys n).length - 1 - iv ≤ dd →
      n - 1 ≤ (sortedNonNanPos keys n).get ⟨iv, h⟩ + iv := by
    intro dd
    induction dd with
    | zero =>
      intro iv h hle
      rw [hSlen] at h hle
      omega
    | succ dd ih =>
      intro iv h hle
      by_cases hlast : iv + 1 < (sortedNonNanPos keys n).length
      · have h2 := ih (iv + 1) hlast (by omega)
        have hd := hdec ⟨iv, h⟩ ⟨iv + 1, hlast⟩ (Fin.mk_lt_mk.mpr (Nat.lt_succ_self iv))
        omega
      · rw [hSlen] at h hlast
        omega
  have hSget : ∀ iv (h : iv < (sortedNonNanPos keys n).length),
      (sortedNonNanPos keys n).get ⟨iv, h⟩ = n - 1 - iv := by
    intro iv h
    have h1 := hub iv h
    have h2 := hlb (sortedNonNanPos keys n).length iv h (by omega)
    omega
  intro k hk
  unfold gsl_sort_vector_index
  rw [if_neg (by rw [hnonan k hk]; exact fun hc => nomatch hc)]
  have hrk : nonNanRank keys k = k := by
    have hfk : (List.range k).filter (fun i => !(isNanKey (keys i))) = List.range k := by
      apply List.filter_eq_self.mpr
      intro a ha
      rw [List.mem_range] at ha
      rw [hnonan a (by omega)]
      rfl
    show ((List.range k).filter _).length = k
    rw [hfk, List.length_range]
  have hlt : nonNanRank keys k < (sortedNonNanPos keys n).length := by
    rw [hSlen, hrk]
    exact hk
  rw [List.getD_eq_get _ _ hlt, hSget (nonNanRank keys k) hlt, hrk]

/-- The applied index map is the identity on a table already sorted the
same way: ascending needs the non-NaN keys in ascending order; descending
needs all keys non-NaN and strictly descending. -/
theorem sortPerm_fixpoint (keys : Nat → RVal) (n : Nat) (asc : Char)
    (hcase : if asc = 'd' ∨ asc = 'D' then
        (∀ j, j < n → isNanKey (keys j) = false) ∧
        (∀ b, b < n → ∀ a, a < b → keyNum (keys b) < keyNum (keys a))
      else
        (∀ b, b < n → ∀ a, a < b → isNanKey (keys a) = false →
          isNanKey (keys b) = false → keyNum (keys a) ≤ keyNum (keys b))) :
    ∀ j, j < n → sortPerm keys n asc j = j := by
  intro j hj
  unfold sortPerm
  by_cases h : asc = 'd' ∨ asc = 'D'
  · rw [if_pos h] at hcase
    obtain ⟨h1, h2⟩ := hcase
    rw [if_pos h, revLoop_reverses n _ j hj,
      gsl_fixpoint_desc keys n h1 h2 (n - 1 - j) (by omega)]
    omega
  · rw [if_neg h] at hcase
    rw [if_neg h]
    exact gsl_fixpoint_asc keys n hcase j hj

/-- A table already sorted by the same key and direction is left entirely
unchanged by `apop_data_sort`. -/
theorem sort_fixpoint_table (t : ApopData) (sortby : Int) (asc : Char)
    (hcase : if asc = 'd' ∨ asc = 'D' then
        (∀ j, j < t.rows.length → isNanKey (tableKeys t sortby j) = false) ∧
        (∀ b, b < t.rows.length → ∀ a, a < b →
          keyNum (tableKeys t sortby b) < keyNum (tableKeys t sortby a))
      else
        (∀ b, b < t.rows.length → ∀ a, a < b →
          isNanKey (tableKeys t sortby a) = false →
          isNanKey (tableKeys t sortby b) = false →
          keyNum (tableKeys t sortby a) ≤ keyNum (tableKeys t sortby b))) :
    apop_data_sort t sortby asc = t := by
  have hrows : (apop_data_sort t sortby asc).rows = t.rows := by
    rw [apop_data_sort_rows]
    have hcong : ∀ i ∈ List.range t.rows.length,
        t.rows.getD (sortPerm (tableKeys t sortby) t.rows.length asc i) default =
        t.rows.getD i default := by
      intro i hi
      rw [List.mem_range] at hi
      rw [sortPerm_fixpoint _ _ asc hcase i hi]
    rw [List.map_congr_left hcong]
    exact map_getD_range t.rows default
  have hsplit : apop_data_sort t sortby asc =
      ⟨t.vecPresent, t.matPresent, (apop_data_sort t sortby asc).rows⟩ := rfl
  rw [hsplit, hrows]

/-! Correctness of the `apop_generalized_harmonic` memoizer. -/

theorem hterm_one (s : ℤ) : hterm s 1 = 1 := by
  unfold hterm
  norm_num

theorem genHarmSum_one (s : ℤ) : genHarmSum s 1 = 1 := by
  show genHarmSum s 0 + hterm s 1 = 1
  rw [hterm_one]
  show (0 : ℚ) + 1 = 1
  norm_num

theorem getD_set_self {α : Type} (l : List α) (i : Nat) (a d : α) (h : i < l.length) :
    (l.set i a).getD i d = a := by
  rw [List.getD_eq_getElem _ _ (by rw [List.length_set]; exact h)]
  simp

theorem getD_set_ne {α : Type} (l : List α) (i j : Nat) (a d : α) (hne : i ≠ j) :
    (l.set i a).getD j d = l.getD j d := by
  by_cases hj : j < l.length
  · rw [List.getD_eq_getElem _ _ (by rw [List.length_set]; exact hj),
      List.getD_eq_getElem _ _ hj]
    simp [List.getElem_set, hne]
  · rw [List.getD_eq_default _ _ (by rw [List.length_set]; omega),
      List.getD_eq_default _ _ (by omega)]

theorem reallocList_length (l : List ℚ) (n : Nat) : (reallocList l n).length = n := by
  unfold reallocList
  rw [List.length_append, List.length_take, List.length_replicate]
  omega

theorem reallocList_getD (l : List ℚ) (n k : Nat) (hk : k < l.length) (hkn : k < n) :
    (reallocList l n).getD k 0 = l.getD k 0 := by
  unfold reallocList
  rw [List.getD_append _ _ _ _ (by rw [List.length_take]; omega)]
  rw [List.getD_eq_getD_get?, List.getD_eq_getD_get?, List.get?_take hkn]

/-- The fill loop extends a correct prefix of partial sums to a correct
array of `N` partial sums. -/
theorem hFill_spec (s : ℤ) (N : Nat) :
    ∀ fuel j vals, N - j ≤ fuel → 1 ≤ j → j ≤ N → vals.length = N →
      (∀ k, k < j → vals.getD k 0 = genHarmSum s (k + 1)) →
      (hFill s j vals N).length = N ∧
      ∀ k, k < N → (hFill s j vals N).getD k 0 = genHarmSum s (k + 1) := by
  intro fuel
  induction fuel with
  | zero =>
    intro j vals hf h1 hjN hlen hcorrect
    rw [hFill_done s j vals N (by omega)]
    exact ⟨hlen, fun k hk => hcorrect k (by omega)⟩
  | succ fuel ih =>
    intro j vals hf h1 hjN hlen hcorrect
    by_cases hjlt : j < N
    · rw [hFill_step s j vals N hjlt]
      refine ih (j + 1) _ (by omega) (by omega) (by omega) ?_ ?_
      · rw [List.length_set, hlen]
      · intro k hk
        by_cases hkj : k = j
        · subst hkj
          rw [getD_set_self _ _ _ _ (by omega)]
          have hk1 : vals.getD (k - 1) 0 = genHarmSum s (k - 1 + 1) :=
            hcorrect (k - 1) (by omega)
          rw [hk1, show k - 1 + 1 = k from by omega]
          rfl
        · rw [getD_set_ne _ _ _ _ _ (fun hcon => hkj hcon.symm)]
          exact hcorrect k (by omega)
    · rw [hFill_done s j vals N hjlt]
      exact ⟨hlen, fun k hk => hcorrect k (by omega)⟩

/-- Using one memo entry returns the true generalized-harmonic sum and
leaves the entry's array well-formed. -/
theorem hUse_spec (s : ℤ) (Nn len : Nat) (vals : List ℚ)
    (h1 : 1 ≤ len) (h2 : len ≤ vals.length)
    (h3 : ∀ k, k < len → vals.getD k 0 = genHarmSum s (k + 1)) (hN : 1 ≤ Nn) :
    (hUse s Nn len vals).1 = genHarmSum s Nn ∧
    Nn ≤ (hUse s Nn len vals).2.length ∧
    len ≤ (hUse s Nn len vals).2.length ∧
    (∀ k, k < Nn → (hUse s Nn len vals).2.getD k 0 = genHarmSum s (k + 1)) ∧
    (∀ k, k < len → (hUse s Nn len vals).2.getD k 0 = genHarmSum s (k + 1)) := by
  by_cases hext : len ≤ Nn - 1
  · have hstep : hUse s Nn len vals =
        ((hFill s len (reallocList vals Nn) Nn).getD (Nn - 1) 0,
          hFill s len (reallocList vals Nn) Nn) := by
      unfold hUse
      rw [if_pos hext]
    have hre : (reallocList vals Nn).length = Nn := reallocList_length vals Nn
    have hpre : ∀ k, k < len → (reallocList vals Nn).getD k 0 = genHarmSum s (k + 1) := by
      intro k hk
      rw [reallocList_getD vals Nn k (by omega) (by omega)]
      exact h3 k hk
    obtain ⟨hl, hc⟩ :=
      hFill_spec s Nn Nn len (reallocList vals Nn) (by omega) h1 (by omega) hre hpre
    rw [hstep]
    refine ⟨?_, by rw [hl], by rw [hl]; omega, fun k hk => hc k hk,
      fun k hk => hc k (by omega)⟩
    rw [hc (Nn - 1) (by omega), show Nn - 1 + 1 = Nn from by omega]
  · have hstep : hUse s Nn len vals = (vals.getD (Nn - 1) 0, vals) := by
      unfold hUse
      rw [if_neg hext]
    have hNle : Nn ≤ len := by omega
    rw [hstep]
    refine ⟨?_, ?_, ?_, fun k hk => h3 k (by omega), fun k hk => h3 k hk⟩
    · rw [h3 (Nn - 1) (by omega), show Nn - 1 + 1 = Nn from by omega]
    · show Nn ≤ vals.length
      omega
    · show len ≤ vals.length
      omega

/-- A memo scan-and-update step returns the true sum and preserves
well-formedness of every entry. -/
theorem hStepEntries_spec (s : ℤ) (Nn : Nat) (hN : 1 ≤ Nn) :
    ∀ st : List HEntry, (∀ e ∈ st, WFentry e) →
      (hStepEntries s Nn st).1 = genHarmSum s Nn ∧
      ∀ e ∈ (hStepEntries s Nn st).2, WFentry e := by
  intro st
  induction st with
  | nil =>
    intro _
    have hv0 : (1 : ℚ) :: List.replicate (Nn - 1) 0 ≠ [] := by simp
    have hlen0 : ((1 : ℚ) :: List.replicate (Nn - 1) 0).length = Nn := by
      rw [List.length_cons, List.length_replicate]
      omega
    have hpre0 : ∀ k, k < 1 →
        ((1 : ℚ) :: List.replicate (Nn - 1) 0).getD k 0 = genHarmSum s (k + 1) := by
      intro k hk
      have hk0 : k = 0 := by omega
      rw [hk0, genHarmSum_one]
      rfl
    obtain ⟨r1, r2, r3, r4, r5⟩ :=
      hUse_spec s Nn 1 ((1 : ℚ) :: List.replicate (Nn - 1) 0)
        (Nat.le_refl 1) (by omega) hpre0 hN
    constructor
    · exact r1
    · intro e he
      simp only [hStepEntries, List.mem_singleton] at he
      rw [he]
      exact ⟨hN, r2, fun k hk => r4 k hk⟩
  | cons e rest ih =>
    intro hwf
    have hwfe := hwf e (List.mem_cons_self e rest)
    obtain ⟨w1, w2, w3⟩ := hwfe
    by_cases he : e.es = s
    · have hstep : hStepEntries s Nn (e :: rest) =
          ((hUse s Nn e.len e.vals).1,
            ⟨e.es, e.len, (hUse s Nn e.len e.vals).2⟩ :: rest) := by
        rw [hStepEntries, if_pos he]
      obtain ⟨r1, r2, r3, r4, r5⟩ :=
        hUse_spec s Nn e.len e.vals w1 w2 (by rw [he] at w3; exact w3) hN
      rw [hstep]
      constructor
      · exact r1
      · intro e2 he2
        rcases List.mem_cons.mp he2 with h | h
        · rw [h]
          refine ⟨w1, r3, ?_⟩
          intro k hk
          rw [he]
          exact r5 k hk
        · exact hwf e2 (List.mem_cons_of_mem e h)
    · have hstep : hStepEntries s Nn (e :: rest) =
          ((hStepEntries s Nn rest).1, e :: (hStepEntries s Nn rest).2) := by
        rw [hStepEntries, if_neg he]
      obtain ⟨ih1, ih2⟩ := ih (fun e2 h => hwf e2 (List.mem_cons_of_mem e h))
      rw [hstep]
      refine ⟨ih1, ?_⟩
      intro e2 he2
      rcases List.mem_cons.mp he2 with h | h
      · rw [h]
        exact ⟨w1, w2, w3⟩
      · exact ih2 e2 h

/-- Every reachable memo state is well-formed. -/
theorem hRun_wf (calls : List (ℤ × ℤ)) : ∀ e ∈ hRun calls, WFentry e := by
  suffices h : ∀ st, (∀ e ∈ st, WFentry e) →
      ∀ e ∈ calls.foldl (fun st c => (apop_generalized_harmonic st c.1 c.2).2) st,
        WFentry e by
    refine h [] ?_
    intro e he
    cases he
  induction calls with
  | nil =>
    intro st hst
    simpa using hst
  | cons c cs ih =>
    intro st hst
    rw [List.foldl_cons]
    refine ih _ ?_
    unfold apop_generalized_harmonic
    by_cases hc : c.1 ≤ 0
    · rw [if_pos hc]
      exact hst
    · rw [if_neg hc]
      exact (hStepEntries_spec c.2 c.1.toNat (by omega) st hst).2

/-! Facts about `apop_vector_percentiles`. -/

theorem percentiles_length (data : List ℚ) (rounding : Char) :
    (apop_vector_percentiles data rounding).1.length = 101 := by
  show ((List.range 101).map _).length = 101
  rw [List.length_map, List.length_range]

theorem percentiles_getD_zero (data : List ℚ) (rounding : Char) :
    (apop_vector_percentiles data rounding).1.getD 0 0 =
      (List.insertionSort (· ≤ ·) data).getD 0 0 := by
  have h1 : (apop_vector_percentiles data rounding).1 =
      (List.range 101).map
        (pctileAt (List.insertionSort (· ≤ ·) data) data.length rounding) := rfl
  rw [h1, getD_map_range _ 101 0 (by omega)]
  unfold pctileAt
  simp

theorem percentiles_getD_hundred (data : List ℚ) (rounding : Char) :
    (apop_vector_percentiles data rounding).1.getD 100 0 =
      (List.insertionSort (· ≤ ·) data).getD (data.length - 1) 0 := by
  have h1 : (apop_vector_percentiles data rounding).1 =
      (List.range 101).map
        (pctileAt (List.insertionSort (· ≤ ·) data) data.length rounding) := rfl
  rw [h1, getD_map_range _ 101 100 (by omega)]
  unfold pctileAt
  have hdvd : 100 ∣ 100 * (data.length - 1) := dvd_mul_right 100 _
  have hidx : 100 * (data.length - 1) / 100 = data.length - 1 := by
    rw [Nat.mul_div_cancel_left _ (by norm_num : 0 < 100)]
  simp only [hdvd, not_true, and_false, if_false, hidx]

theorem insertionSort_rat_sorted (data : List ℚ) :
    List.Sorted (· ≤ ·) (List.insertionSort (· ≤ ·) data) :=
  List.sorted_insertionSort _ _

/-- The head of the sorted copy is the minimum of the data. -/
theorem sorted_getD_zero_min (data : List ℚ) (hne : data ≠ []) :
    (List.insertionSort (· ≤ ·) data).getD 0 0 ∈ data ∧
    ∀ x ∈ data, (List.insertionSort (· ≤ ·) data).getD 0 0 ≤ x := by
  have hperm := List.perm_insertionSort (· ≤ ·) data
  have hpos : 0 < (List.insertionSort (· ≤ ·) data).length := by
    rw [hperm.length_eq]
    exact List.length_pos.mpr hne
  constructor
  · rw [List.getD_eq_get _ _ hpos]
    exact hperm.subset (List.get_mem _ _ _)
  · intro x hx
    obtain ⟨i, hi⟩ := List.mem_iff_get.mp (hperm.mem_iff.mpr hx)
    rw [List.getD_eq_get _ _ hpos, ← hi]
    exact (insertionSort_rat_sorted data).rel_get_of_le
      (Fin.le_def.mpr (Nat.zero_le _))

/-- The last slot of the sorted copy is the maximum of the data. -/
theorem sorted_getD_last_max (data : List ℚ) (hne : data ≠ []) :
    (List.insertionSort (· ≤ ·) data).getD (data.length - 1) 0 ∈ data ∧
    ∀ x ∈ data, x ≤ (List.insertionSort (· ≤ ·) data).getD (data.length - 1) 0 := by
  have hperm := List.perm_insertionSort (· ≤ ·) data
  have hpos : 0 < data.length := List.length_pos.mpr hne
  have hlast : data.length - 1 < (List.insertionSort (· ≤ ·) data).length := by
    rw [hperm.length_eq]
    omega
  constructor
  · rw [List.getD_eq_get _ _ hlast]
    exact hperm.subset (List.get_mem _ _ _)
  · intro x hx
    obtain ⟨i, hi⟩ := List.mem_iff_get.mp (hperm.mem_iff.mpr hx)
    have hrel := (insertionSort_rat_sorted data).rel_get_of_le
      (show i ≤ ⟨data.length - 1, hlast⟩ from Fin.le_def.mpr (by
        have h2 : i.val < data.length := by
          rw [← hperm.length_eq]
          exact i.isLt
        show i.val ≤ data.length - 1
        omega))
    rw [List.getD_eq_get _ _ hlast]
    rw [hi] at hrel
    exact hrel

/-- A slot whose key is non-NaN after applying the modelled index sort was a
non-NaN slot to begin with. -/
theorem gsl_out_nonnan_pos (keys : Nat → RVal) (n j : Nat)
    (h : isNanKey (keys (gsl_sort_vector_index keys n j)) = false) :
    isNanKey (keys j) = false := by
  cases hx : isNanKey (keys j)
  · rfl
  · rw [gsl_perm_nan_fix keys n j hx] at h
    rw [h] at hx
    exact Bool.noConfusion hx

/-! The ten claims. -/

/-- C1: for every table of rows and every permutation of `[0, height)`, the
in-place cycle-following application loop of `apop_data_sort` — including
the unmarked-index scan that resumes from the previous cycle's start rather
than from 0 — produces exactly the table in which new row `i` equals old row
`perm i`: it is extensionally equal to the naive out-of-place permutation
application. -/
theorem claim_c1_inplace_refines_naive (height : Nat) (perm : Nat → Nat)
    (rows : Nat → Row)
    (hrange : ∀ i, i < height → perm i < height)
    (hinj : ∀ a, a < height → ∀ b, b < height → perm a = perm b → a = b) :
    ∀ i, i < height →
      applyPermInPlace perm height rows i = naiveApplyPerm perm rows i :=
  applyPermInPlace_eq_naive perm height hrange hinj rows

/-- Witness for C1 at the concrete 3-cycle `[2, 0, 1]`. -/
theorem claim_c1_witness :
    (∀ i, i < 3 → [2, 0, 1].getD i 0 < 3) ∧
    applyPermInPlace (fun i => [2, 0, 1].getD i 0) 3
        (fun i => (⟨RVal.num i, [], []⟩ : Row)) 1 =
      naiveApplyPerm (fun i => [2, 0, 1].getD i 0)
        (fun i => (⟨RVal.num i, [], []⟩ : Row)) 1 :=
  ⟨by decide,
    claim_c1_inplace_refines_naive 3 (fun i => [2, 0, 1].getD i 0)
      (fun i => (⟨RVal.num i, [], []⟩ : Row))
      (by decide) (by decide) 1 (by decide)⟩

/-- C2: for every table, key selector and direction, sorting preserves the
multiset of rows (each row compared by its whole content) and the row
count; only the order changes. -/
theorem claim_c2_rows_preserved (t : ApopData) (sortby : Int) (asc : Char) :
    ((apop_data_sort t sortby asc).rows : Multiset Row) = (t.rows : Multiset Row) ∧
    (apop_data_sort t sortby asc).rows.length = t.rows.length :=
  ⟨Multiset.coe_eq_coe.mpr (apop_data_sort_rows_perm t sortby asc),
    (apop_data_sort_rows_perm t sortby asc).length_eq⟩

/-- C3: in the sorted table, any two adjacent rows whose key values are both
non-NaN are in ascending key order, or descending when the direction is 'd'
or 'D'. -/
theorem claim_c3_adjacent_ordering (t : ApopData) (sortby : Int) (asc : Char)
    (i : Nat) (hi : i + 1 < t.rows.length)
    (h1 : isNanKey (tableKeys (apop_data_sort t sortby asc) sortby i) = false)
    (h2 : isNanKey (tableKeys (apop_data_sort t sortby asc) sortby (i + 1)) = false) :
    if asc = 'd' ∨ asc = 'D' then
      keyNum (tableKeys (apop_data_sort t sortby asc) sortby (i + 1)) ≤
        keyNum (tableKeys (apop_data_sort t sortby asc) sortby i)
    else
      keyNum (tableKeys (apop_data_sort t sortby asc) sortby i) ≤
        keyNum (tableKeys (apop_data_sort t sortby asc) sortby (i + 1)) := by
  have hk1 := tableKeys_sort t sortby asc i (by omega)
  have hk2 := tableKeys_sort t sortby asc (i + 1) hi
  rw [hk1] at h1 ⊢
  rw [hk2] at h2 ⊢
  by_cases h : asc = 'd' ∨ asc = 'D'
  · have hsp1 : sortPerm (tableKeys t sortby) t.rows.length asc i =
        gsl_sort_vector_index (tableKeys t sortby) t.rows.length
          (t.rows.length - 1 - i) := by
      unfold sortPerm
      rw [if_pos h]
      exact revLoop_reverses _ _ i (by omega)
    have hsp2 : sortPerm (tableKeys t sortby) t.rows.length asc (i + 1) =
        gsl_sort_vector_index (tableKeys t sortby) t.rows.length
          (t.rows.length - 1 - (i + 1)) := by
      unfold sortPerm
      rw [if_pos h]
      exact revLoop_reverses _ _ (i + 1) hi
    rw [if_pos h]
    rw [hsp1] at h1 ⊢
    rw [hsp2] at h2 ⊢
    exact gsl_perm_sorted (tableKeys t sortby) t.rows.length
      (t.rows.length - 1 - (i + 1)) (t.rows.length - 1 - i) (by omega) (by omega)
      (gsl_out_nonnan_pos _ _ _ h2) (gsl_out_nonnan_pos _ _ _ h1)
  · have hsp1 : sortPerm (tableKeys t sortby) t.rows.length asc i =
        gsl_sort_vector_index (tableKeys t sortby) t.rows.length i := by
      unfold sortPerm
      rw [if_neg h]
    have hsp2 : sortPerm (tableKeys t sortby) t.rows.length asc (i + 1) =
        gsl_sort_vector_index (tableKeys t sortby) t.rows.length (i + 1) := by
      unfold sortPerm
      rw [if_neg h]
    rw [if_neg h]
    rw [hsp1] at h1 ⊢
    rw [hsp2] at h2 ⊢
    exact gsl_perm_sorted (tableKeys t sortby) t.rows.length i (i + 1)
      (by omega) hi (gsl_out_nonnan_pos _ _ _ h1) (gsl_out_nonnan_pos _ _ _ h2)

/-- Witness for C3 on the scenario table, ascending, rows 0 and 1. -/
theorem claim_c3_witness :
    keyNum (tableKeys (apop_data_sort scenTable 0 's') 0 0) ≤
      keyNum (tableKeys (apop_data_sort scenTable 0 's') 0 1) := by
  have h := claim_c3_adjacent_ordering scenTable 0 's' 0 (by decide)
    (by decide) (by decide)
  rw [if_neg (by decide)] at h
  exact h

/-- C4 counterexample: in a descending sort the NaN-keyed first row of
`nanTable` does not stay at its original position — the unconditional
reversal of the permutation moves it. -/
theorem claim_c4_counterexample :
    isNanKey (tableKeys nanTable 0 0) = true ∧
    (apop_data_sort nanTable 0 'd').rows.getD 0 default ≠
      nanTable.rows.getD 0 default := by
  exact ⟨by decide, by decide⟩

/-- C4 (amended): in an ascending sort (any direction other than 'd'/'D'),
every NaN-keyed row stays at its original position — hence NaN rows also
keep their relative order.  The original claim's "either direction" fails:
see the counterexample for descending. -/
theorem claim_c4_nan_stay_ascending (t : ApopData) (sortby : Int) (asc : Char)
    (hasc : ¬(asc = 'd' ∨ asc = 'D')) (i : Nat) (hi : i < t.rows.length)
    (hnan : isNanKey (tableKeys t sortby i) = true) :
    (apop_data_sort t sortby asc).rows.getD i default = t.rows.getD i default := by
  rw [apop_data_sort_getD t sortby asc i hi]
  have hp : sortPerm (tableKeys t sortby) t.rows.length asc i = i := by
    unfold sortPerm
    rw [if_neg hasc]
    exact gsl_perm_nan_fix _ _ i hnan
  rw [hp]

/-- Witness for the amended C4: the NaN row of `nanTable` stays at slot 0
under an ascending sort. -/
theorem claim_c4_witness :
    (apop_data_sort nanTable 0 's').rows.getD 0 default =
      nanTable.rows.getD 0 default :=
  claim_c4_nan_stay_ascending nanTable 0 's' (by decide) 0 (by decide) (by decide)

/-- C5: for a descending sort the ascending permutation is reversed in
place by the swap loop — the loop computes exactly the reversal — and the
spec's three-row scenario with keys 3, 1, 2 sorts descending to 3, 2, 1. -/
theorem claim_c5_descending_reversal :
    (∀ n (p : Nat → Nat) k, k < n → revLoop n 0 p k = p (n - 1 - k)) ∧
    apop_data_sort scenTable 0 'd' =
      mkTable [(RVal.num 3, "c"), (RVal.num 2, "b"), (RVal.num 1, "a")] := by
  constructor
  · intro n p k hk
    exact revLoop_reverses n p k hk
  · decide

/-- Witness for C5's reversal characterization at a concrete input. -/
theorem claim_c5_witness :
    0 < 2 ∧ revLoop 2 0 (fun i => i) 0 = (fun i : Nat => i) (2 - 1 - 0) :=
  ⟨by decide, claim_c5_descending_reversal.1 2 (fun i => i) 0 (by decide)⟩

/-- C6 counterexample: `tieTable` has keys 2, 2 — already sorted descending
(non-increasing) — yet a descending sort swaps its two rows, so re-sorting
an already-sorted table is not in general the identity. -/
theorem claim_c6_counterexample :
    keyNum (tableKeys tieTable 0 1) ≤ keyNum (tableKeys tieTable 0 0) ∧
    apop_data_sort tieTable 0 'd' ≠ tieTable := by
  exact ⟨by decide, by decide⟩

/-- C6 (amended): sorting an already-sorted table by the same key and
direction yields the identical row order, provided "already sorted" means:
for ascending, the non-NaN key values are non-decreasing along row order;
for descending, all keys are non-NaN and strictly decreasing (with tied or
NaN keys the descending re-sort can move rows — see the counterexample). -/
theorem claim_c6_idempotent (t : ApopData) (sortby : Int) (asc : Char)
    (hsorted : if asc = 'd' ∨ asc = 'D' then
        (∀ j, j < t.rows.length → isNanKey (tableKeys t sortby j) = false) ∧
        (∀ b, b < t.rows.length → ∀ a, a < b →
          keyNum (tableKeys t sortby b) < keyNum (tableKeys t sortby a))
      else
        (∀ b, b < t.rows.length → ∀ a, a < b →
          isNanKey (tableKeys t sortby a) = false →
          isNanKey (tableKeys t sortby b) = false →
          keyNum (tableKeys t sortby a) ≤ keyNum (tableKeys t sortby b))) :
    apop_data_sort t sortby asc = t :=
  sort_fixpoint_table t sortby asc hsorted

/-- Witness for the amended C6: an ascending re-sort of an ascending-sorted
table and a descending re-sort of a strictly descending table both leave
the table unchanged. -/
theorem claim_c6_witness :
    apop_data_sort
        (mkTable [(RVal.num 1, "a"), (RVal.num 2, "b"), (RVal.num 3, "c")]) 0 's' =
      mkTable [(RVal.num 1, "a"), (RVal.num 2, "b"), (RVal.num 3, "c")] ∧
    apop_data_sort
        (mkTable [(RVal.num 3, "c"), (RVal.num 2, "b"), (RVal.num 1, "a")]) 0 'd' =
      mkTable [(RVal.num 3, "c"), (RVal.num 2, "b"), (RVal.num 1, "a")] :=
  ⟨claim_c6_idempotent _ 0 's'
      (by rw [if_neg (show ¬('s' = 'd' ∨ 's' = 'D') from by decide)]; decide),
    claim_c6_idempotent _ 0 'd'
      (by rw [if_pos (show ('d' = 'd' ∨ 'd' = 'D') from by decide)]; decide)⟩

/-- C7: with the default (absent) selector, a table with no matrix but a
vector resolves the key selector to the vector (`-1`); a table with a
matrix resolves it to matrix column 0. -/
theorem claim_c7_default_selector (t : ApopData) :
    (t.matPresent = false → t.vecPresent = true → resolveSortby none t = -1) ∧
    (t.matPresent = true → resolveSortby none t = 0) := by
  constructor
  · intro h1 h2
    show (if (0 : Int) = 0 ∧ t.matPresent = false ∧ t.vecPresent = true
      then (-1 : Int) else 0) = -1
    rw [if_pos ⟨rfl, h1, h2⟩]
  · intro h1
    show (if (0 : Int) = 0 ∧ t.matPresent = false ∧ t.vecPresent = true
      then (-1 : Int) else 0) = 0
    refine if_neg ?_
    intro hcon
    rw [h1] at hcon
    exact Bool.noConfusion hcon.2.1

/-- Witness for C7 on concrete vector-only and matrix tables. -/
theorem claim_c7_witness :
    resolveSortby none vecOnlyTable = -1 ∧ resolveSortby none matOnlyTable = 0 :=
  ⟨(claim_c7_default_selector vecOnlyTable).1 rfl rfl,
    (claim_c7_default_selector matOnlyTable).2 rfl⟩

/-- C8: a null table makes `apop_data_sort` return a null result with no
state to mutate, emitting the diagnostic exactly when verbosity is at least
1, and a null input is the only way to get a null result. -/
theorem claim_c8_null_input :
    (∀ sortby asc verbose,
      apop_data_sort_varad none sortby asc verbose = (none, decide (1 ≤ verbose))) ∧
    (∀ data sortby asc verbose,
      ((apop_data_sort_varad data sortby asc verbose).1 = none ↔ data = none)) ∧
    (∀ data sortby asc verbose,
      ((apop_data_sort_varad data sortby asc verbose).2 = true ↔
        data = none ∧ 1 ≤ verbose)) := by
  refine ⟨fun sortby asc verbose => rfl, ?_, ?_⟩
  · intro data sortby asc verbose
    cases data with
    | none => simp [apop_data_sort_varad]
    | some t => simp [apop_data_sort_varad]
  · intro data sortby asc verbose
    cases data with
    | none => simp [apop_data_sort_varad]
    | some t => simp [apop_data_sort_varad]

/-- C9: after any sequence of prior calls, a call with `N > 0` returns the
reference sum of `1/n^s` for `n` from 1 to `N` — the memo never changes the
result — and a call with `N ≤ 0` returns NaN. -/
theorem claim_c9_harmonic (calls : List (ℤ × ℤ)) (N s : ℤ) :
    (0 < N → (apop_generalized_harmonic (hRun calls) N s).1 =
      some (genHarmSum s N.toNat)) ∧
    (N ≤ 0 → (apop_generalized_harmonic (hRun calls) N s).1 = none) := by
  constructor
  · intro hN
    have hs := hStepEntries_spec s N.toNat (by omega) (hRun calls) (hRun_wf calls)
    unfold apop_generalized_harmonic
    rw [if_neg (by omega)]
    show some (hStepEntries s N.toNat (hRun calls)).1 = _
    rw [hs.1]
  · intro hN
    unfold apop_generalized_harmonic
    rw [if_pos hN]

/-- Witness for C9: after calls `(3, 2)` and `(5, 2)`, requesting `N = 4`,
`s = 2` yields the exact sum `1 + 1/4 + 1/9 + 1/16 = 205/144`. -/
theorem claim_c9_witness :
    (apop_generalized_harmonic (hRun [(3, 2), (5, 2)]) 4 2).1 =
      some (genHarmSum 2 4) ∧ genHarmSum 2 4 = 205 / 144 :=
  ⟨(claim_c9_harmonic [(3, 2), (5, 2)] 4 2).1 (by norm_num), by
    show genHarmSum 2 4 = 205 / 144
    norm_num [genHarmSum, hterm]⟩

/-- C10: for any nonempty data vector and any rounding mode, the
percentile array has 101 slots, slot 0 is the minimum and slot 100 the
maximum of the data, and the input vector comes back unmodified (only the
fresh copy is sorted). -/
theorem claim_c10_percentiles (data : List ℚ) (rounding : Char)
    (hne : data ≠ []) :
    (apop_vector_percentiles data rounding).1.length = 101 ∧
    ((apop_vector_percentiles data rounding).1.getD 0 0 ∈ data ∧
      ∀ x ∈ data, (apop_vector_percentiles data rounding).1.getD 0 0 ≤ x) ∧
    ((apop_vector_percentiles data rounding).1.getD 100 0 ∈ data ∧
      ∀ x ∈ data, x ≤ (apop_vector_percentiles data rounding).1.getD 100 0) ∧
    (apop_vector_percentiles data rounding).2 = data := by
  obtain ⟨hmin1, hmin2⟩ := sorted_getD_zero_min data hne
  obtain ⟨hmax1, hmax2⟩ := sorted_getD_last_max data hne
  refine ⟨percentiles_length data rounding, ?_, ?_, rfl⟩
  · rw [percentiles_getD_zero]
    exact ⟨hmin1, hmin2⟩
  · rw [percentiles_getD_hundred]
    exact ⟨hmax1, hmax2⟩

/-- Witness for C10 on the vector `[3, 1, 2]` with `'u'` rounding. -/
theorem claim_c10_witness :
    (apop_vector_percentiles [3, 1, 2] 'u').1.length = 101 ∧
    (apop_vector_percentiles [3, 1, 2] 'u').1.getD 0 0 = 1 ∧
    (apop_vector_percentiles [3, 1, 2] 'u').1.getD 100 0 = 3 :=
  ⟨(claim_c10_percentiles [3, 1, 2] 'u' (by decide)).1, by decide, by decide⟩

end Apophenia
